import Mathlib

/-!
Verification development for the bounded-distance block aligner.

The Rust sources are shallowly embedded:
* machine words (`u64` / the lanes of `Simd<u64, L>`) become `Nat` with
  explicit `% 2 ^ 64` where wrap-around matters;
* signed 32-bit indices and costs (`I`, `Cost`) become `Int` (the algorithms
  under study never approach the overflow boundary);
* fallible code (`panic!`, `expect`, `assert!`) becomes `Except` / `Option`.

Components of the repository whose sources are absent (the block store, the
heuristic instances, the `pa-types`/`pa-affine-types` helpers and the
quadratic reference aligner) are modelled from the specification; each such
definition carries a doc comment starting with `Modelled from the spec:`.
-/

namespace APA

/-- Word size of the bit-packed kernel (`W = 64` in `pa-bitpacking`). -/
def Wsize : Nat := 64

/-- Modulus of a 64-bit machine word. -/
def M64 : Nat := 2 ^ 64

/-- Bitwise complement of a 64-bit word (`!x` on `u64` / SIMD lanes). -/
def compl64 (x : Nat) : Nat := x ^^^ (M64 - 1)

/-- Result of one call of the kernel: the outgoing horizontal carries and the
new plus/minus column words (the values left in `*ph0, *mh0, *pv, *mv`). -/
structure KernelOut where
  phw : Nat
  mhw : Nat
  pv : Nat
  mv : Nat
deriving Repr, DecidableEq

/-- One scalar lane of `compute_block_simd` from `pa-bitpacking/benches/nw/simd.rs`.
The SIMD function applies this word recurrence to each of the `L` lanes
independently; `+`, `<<`, `>>`, `|`, `&`, `^`, `!` are the wrapping `u64`
operations.  Returns the outgoing carries `(phw, mhw)` and the new column
`(pv, mv)`, mirroring the in-place updates of the Rust function. -/
def computeBlock (ph0 mh0 pv mv eq : Nat) : KernelOut :=
  let xv := eq ||| mv
  let eq1 := eq ||| mh0
  let xh := ((((eq1 &&& pv) + pv) % M64) ^^^ pv) ||| eq1
  let ph := mv ||| compl64 (xh ||| pv)
  let mh := pv &&& xh
  let phw := ph >>> 63
  let mhw := mh >>> 63
  let phs := ((ph <<< 1) ||| ph0) % M64
  let mhs := ((mh <<< 1) ||| mh0) % M64
  ⟨phw, mhw, mhs ||| compl64 (xv ||| phs), phs &&& xv⟩

/-- Carry into bit `i` of the addition `a + b` on natural numbers. -/
def carryAt (a b i : Nat) : Bool := decide (2 ^ i ≤ a % 2 ^ i + b % 2 ^ i)

theorem carryAt_zero (a b : Nat) : carryAt a b 0 = false := by
  simp [carryAt, Nat.mod_one]

theorem div_two_pow_mod_two (a i : Nat) :
    a / 2 ^ i % 2 = (if a.testBit i then 1 else 0) := by
  have h := @Nat.testBit_to_div_mod i a
  by_cases hb : a.testBit i
  · simp [hb] at h ⊢; omega
  · simp [hb] at h ⊢; omega

theorem mod_two_pow_succ (a i : Nat) :
    a % 2 ^ (i + 1) = a % 2 ^ i + 2 ^ i * (if a.testBit i then 1 else 0) := by
  rw [Nat.mod_pow_succ, div_two_pow_mod_two]

theorem carryAt_succ (a b i : Nat) :
    carryAt a b (i + 1) =
      ((a.testBit i && b.testBit i) ||
        ((a.testBit i || b.testBit i) && carryAt a b i)) := by
  have ha := mod_two_pow_succ a i
  have hb := mod_two_pow_succ b i
  have hma : a % 2 ^ i < 2 ^ i := Nat.mod_lt _ (Nat.two_pow_pos i)
  have hmb : b % 2 ^ i < 2 ^ i := Nat.mod_lt _ (Nat.two_pow_pos i)
  have hp : (2 : Nat) ^ (i + 1) = 2 ^ i * 2 := Nat.pow_succ 2 i
  rw [Bool.eq_iff_iff]
  simp only [carryAt, Bool.or_eq_true, Bool.and_eq_true, decide_eq_true_eq]
  rw [ha, hb, hp]
  by_cases hba : a.testBit i = true <;> by_cases hbb : b.testBit i = true <;>
    simp [hba, hbb] <;> omega

/-- The word `Eq | Mh0` computed by the kernel (named `eq` again in the Rust). -/
def cbEq1 (eq mh0 : Nat) : Nat := eq ||| mh0

/-- The word `Xh` of the kernel, including the wrapping addition. -/
def cbXh (eq mh0 pv : Nat) : Nat :=
  ((((cbEq1 eq mh0 &&& pv) + pv) % M64) ^^^ pv) ||| cbEq1 eq mh0

/-- The word `Ph` of the kernel, before the shift. -/
def cbPh (eq mh0 pv mv : Nat) : Nat := mv ||| compl64 (cbXh eq mh0 pv ||| pv)

/-- The word `Mh` of the kernel, before the shift. -/
def cbMh (eq mh0 pv : Nat) : Nat := pv &&& cbXh eq mh0 pv

/-- The shifted word `Ph` with the incoming carry pushed into bit 0. -/
def cbPhs (eq ph0 mh0 pv mv : Nat) : Nat := ((cbPh eq mh0 pv mv <<< 1) ||| ph0) % M64

/-- The shifted word `Mh` with the incoming carry pushed into bit 0. -/
def cbMhs (eq mh0 pv : Nat) : Nat := ((cbMh eq mh0 pv <<< 1) ||| mh0) % M64

/-- The word `Xv` of the kernel. -/
def cbXv (eq mv : Nat) : Nat := eq ||| mv

/-- The carry chain of the wrapping addition `(Eq1 & Pv) + Pv` inside `Xh`. -/
def ccChain (eq mh0 pv : Nat) (j : Nat) : Bool := carryAt (cbEq1 eq mh0 &&& pv) pv j

theorem computeBlock_eq (ph0 mh0 pv mv eq : Nat) :
    computeBlock ph0 mh0 pv mv eq =
      ⟨cbPh eq mh0 pv mv >>> 63, cbMh eq mh0 pv >>> 63,
        cbMhs eq mh0 pv ||| compl64 (cbXv eq mv ||| cbPhs eq ph0 mh0 pv mv),
        cbPhs eq ph0 mh0 pv mv &&& cbXv eq mv⟩ := rfl

theorem testBit_add (a b i : Nat) :
    (a + b).testBit i = ((a.testBit i ^^ b.testBit i) ^^ carryAt a b i) := by
  have hdiv : (a + b) / 2 ^ i =
      a / 2 ^ i + b / 2 ^ i + (if carryAt a b i then 1 else 0) := by
    rw [Nat.add_div (Nat.two_pow_pos i)]
    simp [carryAt]
  have h1 := div_two_pow_mod_two a i
  have h2 := div_two_pow_mod_two b i
  have h4 := @Nat.testBit_to_div_mod i (a + b)
  by_cases hba : a.testBit i = true <;> by_cases hbb : b.testBit i = true <;>
    by_cases hc : carryAt a b i = true <;>
      simp [hba, hbb, hc] at h1 h2 hdiv ⊢ <;>
      rw [h4] <;>
      simp only [decide_eq_true_eq, decide_eq_false_iff_not] <;>
      omega

theorem testBit_compl64 (x j : Nat) (hj : j < 64) :
    (compl64 x).testBit j = !x.testBit j := by
  rw [compl64, Nat.testBit_xor,
    show M64 - 1 = 2 ^ 64 - 1 from rfl, Nat.testBit_two_pow_sub_one]
  rcases Bool.eq_false_or_eq_true (x.testBit j) with h | h <;> simp [h, hj]

theorem testBit_le_one (x k : Nat) (hx : x ≤ 1) (hk : 0 < k) :
    x.testBit k = false := by
  apply Nat.testBit_lt_two_pow
  calc x ≤ 1 := hx
    _ < 2 ^ k := Nat.one_lt_two_pow_iff.mpr (by omega)

theorem ccChain_zero (eq mh0 pv : Nat) : ccChain eq mh0 pv 0 = false :=
  carryAt_zero _ _

theorem ccChain_succ (eq mh0 pv j : Nat) :
    ccChain eq mh0 pv (j + 1) =
      (pv.testBit j && ((cbEq1 eq mh0).testBit j || ccChain eq mh0 pv j)) := by
  show carryAt (cbEq1 eq mh0 &&& pv) pv (j + 1) = _
  rw [carryAt_succ, Nat.testBit_land]
  rcases Bool.eq_false_or_eq_true ((cbEq1 eq mh0).testBit j) with h1 | h1 <;>
    rcases Bool.eq_false_or_eq_true (pv.testBit j) with h2 | h2 <;>
      rcases Bool.eq_false_or_eq_true (carryAt (cbEq1 eq mh0 &&& pv) pv j)
        with h3 | h3 <;>
      simp [ccChain, h1, h2, h3]

theorem testBit_cbXh (eq mh0 pv j : Nat) (hj : j < 64) :
    (cbXh eq mh0 pv).testBit j =
      ((cbEq1 eq mh0).testBit j || ccChain eq mh0 pv j) := by
  rw [cbXh, Nat.testBit_lor, Nat.testBit_xor]
  rw [show M64 = 2 ^ 64 from rfl, Nat.testBit_mod_two_pow]
  rw [testBit_add, Nat.testBit_land]
  rcases Bool.eq_false_or_eq_true ((cbEq1 eq mh0).testBit j) with h1 | h1 <;>
    rcases Bool.eq_false_or_eq_true (pv.testBit j) with h2 | h2 <;>
      rcases Bool.eq_false_or_eq_true (ccChain eq mh0 pv j) with h3 | h3 <;>
      simp [ccChain, h1, h2, h3, hj]

/-- The vertical increment `D[j+1] - D[j]` encoded by a plus/minus word pair,
as in the spec: `+1` where the plus bit is set, `-1` where the minus bit is. -/
def vdelta (p m : Nat) (j : Nat) : Int :=
  if p.testBit j then 1 else if m.testBit j then -1 else 0

/-- Absolute DP value at row `j`, recovered by prefix-summing the vertical
increments of a plus/minus word pair from the anchor value `top` at row 0. -/
def colVal (top : Int) (p m : Nat) : Nat → Int
  | 0 => top
  | j + 1 => colVal top p m j + vdelta p m j

/-- Substitution cost of row `j` against the new column character, read off
the equality mask: `0` on a match, `1` otherwise. -/
def subCost (eq : Nat) (j : Nat) : Int := if eq.testBit j then 0 else 1

/-- Modelled from the spec: the naive integer column-DP update
(`D_new[j] = min(D_prev[j-1] + (1-Eq), D_prev[j] + 1, D_new[j-1] + 1)`),
with the previous column given by `(pv, mv)` increments from anchor `top`
and the incoming horizontal difference `h0` at the top boundary. -/
def naiveCol (top h0 : Int) (pv mv eq : Nat) : Nat → Int
  | 0 => top + h0
  | j + 1 =>
      min (min (colVal top pv mv j + subCost eq j) (colVal top pv mv (j + 1) + 1))
        (naiveCol top h0 pv mv eq j + 1)

/-- Horizontal difference `D_new[j] - D_prev[j]` between the new and the
previous column at row `j`. -/
def hdVal (top h0 : Int) (pv mv eq : Nat) (j : Nat) : Int :=
  naiveCol top h0 pv mv eq j - colVal top pv mv j

theorem testBit_disjoint {x y : Nat} (h : x &&& y = 0) (j : Nat) :
    ¬(x.testBit j = true ∧ y.testBit j = true) := by
  rintro ⟨h1, h2⟩
  have hb := Nat.testBit_land x y j
  rw [h, h1, h2, Nat.zero_testBit] at hb
  exact Bool.false_ne_true hb

theorem cell_lemma (cs vd hdj s dn : Int)
    (hcs : cs = 0 ∨ cs = 1) (hvd : -1 ≤ vd ∧ vd ≤ 1) (hhd : -1 ≤ hdj ∧ hdj ≤ 1)
    (hdn : dn = min (min (s + cs) (s + vd + 1)) (s + hdj + 1)) :
    (dn - (s + vd) = -1 ↔ (vd = 1 ∧ (cs = 0 ∨ hdj = -1))) ∧
    (dn - (s + vd) = 1 ↔ (vd = -1 ∨ (cs = 1 ∧ vd ≠ 1 ∧ hdj ≠ -1))) ∧
    (dn - (s + hdj) = 1 ↔ (hdj = -1 ∨ (cs = 1 ∧ vd ≠ -1 ∧ hdj ≠ 1))) ∧
    (dn - (s + hdj) = -1 ↔ (hdj = 1 ∧ (cs = 0 ∨ vd = -1))) ∧
    (-1 ≤ dn - (s + vd) ∧ dn - (s + vd) ≤ 1) ∧
    (-1 ≤ dn - (s + hdj) ∧ dn - (s + hdj) ≤ 1) := by
  omega

theorem naiveCol_succ_min (top h0 : Int) (pv mv eq : Nat) (j : Nat) :
    naiveCol top h0 pv mv eq (j + 1) =
      min (min (colVal top pv mv j + subCost eq j)
          (colVal top pv mv j + vdelta pv mv j + 1))
        (colVal top pv mv j + hdVal top h0 pv mv eq j + 1) := by
  have h1 : colVal top pv mv (j + 1) = colVal top pv mv j + vdelta pv mv j := rfl
  have h2 : naiveCol top h0 pv mv eq j =
      colVal top pv mv j + hdVal top h0 pv mv eq j := by
    rw [hdVal]; ring
  rw [naiveCol, h1, h2]

theorem vdelta_bounds (pv mv j : Nat) : -1 ≤ vdelta pv mv j ∧ vdelta pv mv j ≤ 1 := by
  rw [vdelta]
  rcases Bool.eq_false_or_eq_true (pv.testBit j) with h1 | h1 <;>
    rcases Bool.eq_false_or_eq_true (mv.testBit j) with h2 | h2 <;>
      simp [h1, h2]

theorem subCost_cases (eq j : Nat) : subCost eq j = 0 ∨ subCost eq j = 1 := by
  rw [subCost]
  rcases Bool.eq_false_or_eq_true (eq.testBit j) with h | h <;> simp [h]

theorem kernel_hstep (eq mh0 pv mv : Nat) (top h0 : Int) (j : Nat) (hj : j ≤ 63)
    (hdisj : pv &&& mv = 0)
    (h3 : ((cbEq1 eq mh0).testBit j || ccChain eq mh0 pv j) = true ↔
      (eq.testBit j = true ∨ hdVal top h0 pv mv eq j = -1))
    (h4 : -1 ≤ hdVal top h0 pv mv eq j ∧ hdVal top h0 pv mv eq j ≤ 1) :
    ((cbPh eq mh0 pv mv).testBit j = true ↔ hdVal top h0 pv mv eq (j + 1) = 1) ∧
    ((cbMh eq mh0 pv).testBit j = true ↔ hdVal top h0 pv mv eq (j + 1) = -1) ∧
    (-1 ≤ hdVal top h0 pv mv eq (j + 1) ∧ hdVal top h0 pv mv eq (j + 1) ≤ 1) := by
  have hx := testBit_cbXh eq mh0 pv j (by omega)
  have hmin := naiveCol_succ_min top h0 pv mv eq j
  have hcell := cell_lemma (subCost eq j) (vdelta pv mv j) (hdVal top h0 pv mv eq j)
    (colVal top pv mv j) (naiveCol top h0 pv mv eq (j + 1)) (subCost_cases eq j)
    (vdelta_bounds pv mv j) h4 hmin
  have hnd : ¬(pv.testBit j = true ∧ mv.testBit j = true) := testBit_disjoint hdisj j
  have hph : (cbPh eq mh0 pv mv).testBit j =
      (mv.testBit j || !((cbXh eq mh0 pv).testBit j || pv.testBit j)) := by
    rw [cbPh, Nat.testBit_lor, testBit_compl64 _ _ (by omega), Nat.testBit_lor]
  have hmh : (cbMh eq mh0 pv).testBit j =
      (pv.testBit j && (cbXh eq mh0 pv).testBit j) := by
    rw [cbMh, Nat.testBit_land]
  have hnew : hdVal top h0 pv mv eq (j + 1) =
      naiveCol top h0 pv mv eq (j + 1) - (colVal top pv mv j + vdelta pv mv j) := by
    rw [hdVal]
    have : colVal top pv mv (j + 1) = colVal top pv mv j + vdelta pv mv j := rfl
    rw [this]
  rw [hph, hmh, hx]
  rcases Bool.eq_false_or_eq_true (pv.testBit j) with hpb | hpb <;>
    rcases Bool.eq_false_or_eq_true (mv.testBit j) with hmb | hmb <;>
      rcases Bool.eq_false_or_eq_true (eq.testBit j) with heb | heb <;>
        rcases Bool.eq_false_or_eq_true
          ((cbEq1 eq mh0).testBit j || ccChain eq mh0 pv j) with hxb | hxb <;>
          first
            | (exfalso; exact hnd ⟨hpb, hmb⟩)
            | (simp [vdelta, subCost, hpb, hmb, heb, hxb] at hcell hnew h3 ⊢ <;>
                omega)

theorem kernel_inv (ph0 mh0 pv mv eq : Nat) (top : Int)
    (hdisj : pv &&& mv = 0) (hph0 : ph0 ≤ 1) (hmh0 : mh0 ≤ 1)
    (hnb : ¬(ph0 = 1 ∧ mh0 = 1)) :
    ∀ j, j ≤ 63 →
      ((cbPhs eq ph0 mh0 pv mv).testBit j = true ↔
        hdVal top ((ph0 : Int) - (mh0 : Int)) pv mv eq j = 1) ∧
      ((cbMhs eq mh0 pv).testBit j = true ↔
        hdVal top ((ph0 : Int) - (mh0 : Int)) pv mv eq j = -1) ∧
      (((cbEq1 eq mh0).testBit j || ccChain eq mh0 pv j) = true ↔
        (eq.testBit j = true ∨
          hdVal top ((ph0 : Int) - (mh0 : Int)) pv mv eq j = -1)) ∧
      (-1 ≤ hdVal top ((ph0 : Int) - (mh0 : Int)) pv mv eq j ∧
        hdVal top ((ph0 : Int) - (mh0 : Int)) pv mv eq j ≤ 1) := by
  intro j
  induction j with
  | zero =>
    intro _
    have h0v : hdVal top ((ph0 : Int) - (mh0 : Int)) pv mv eq 0 =
        (ph0 : Int) - (mh0 : Int) := by
      rw [hdVal]
      show top + ((ph0 : Int) - (mh0 : Int)) - top = _
      ring
    have e1 : (cbPhs eq ph0 mh0 pv mv).testBit 0 = ph0.testBit 0 := by
      rw [cbPhs, show M64 = 2 ^ 64 from rfl, Nat.testBit_mod_two_pow]
      simp [Nat.testBit_lor, Nat.testBit_shiftLeft]
    have e2 : (cbMhs eq mh0 pv).testBit 0 = mh0.testBit 0 := by
      rw [cbMhs, show M64 = 2 ^ 64 from rfl, Nat.testBit_mod_two_pow]
      simp [Nat.testBit_lor, Nat.testBit_shiftLeft]
    have e3 : (cbEq1 eq mh0).testBit 0 = (eq.testBit 0 || mh0.testBit 0) :=
      Nat.testBit_lor _ _ _
    rw [e1, e2, e3, ccChain_zero, h0v]
    have hp2 : ph0 = 0 ∨ ph0 = 1 := by omega
    have hm2 : mh0 = 0 ∨ mh0 = 1 := by omega
    rcases hp2 with hp | hp <;> rcases hm2 with hm | hm <;>
      simp [hp, hm] at hnb ⊢ <;> omega
  | succ j ih =>
    intro hj
    obtain ⟨ih1, ih2, ih3, ih4⟩ := ih (by omega)
    have hstep := kernel_hstep eq mh0 pv mv top ((ph0 : Int) - (mh0 : Int)) j
      (by omega) hdisj ih3 ih4
    have e1 : (cbPhs eq ph0 mh0 pv mv).testBit (j + 1) =
        (cbPh eq mh0 pv mv).testBit j := by
      rw [cbPhs, show M64 = 2 ^ 64 from rfl, Nat.testBit_mod_two_pow,
        Nat.testBit_lor, Nat.testBit_shiftLeft,
        testBit_le_one ph0 (j + 1) hph0 (by omega)]
      simp [hj, Nat.lt_succ_iff.mpr hj]
    have e2 : (cbMhs eq mh0 pv).testBit (j + 1) =
        (cbMh eq mh0 pv).testBit j := by
      rw [cbMhs, show M64 = 2 ^ 64 from rfl, Nat.testBit_mod_two_pow,
        Nat.testBit_lor, Nat.testBit_shiftLeft,
        testBit_le_one mh0 (j + 1) hmh0 (by omega)]
      simp [hj, Nat.lt_succ_iff.mpr hj]
    have e3 : (cbEq1 eq mh0).testBit (j + 1) = eq.testBit (j + 1) := by
      rw [cbEq1, Nat.testBit_lor, testBit_le_one mh0 (j + 1) hmh0 (by omega)]
      simp
    have e4 : ccChain eq mh0 pv (j + 1) = (cbMh eq mh0 pv).testBit j := by
      rw [ccChain_succ, cbMh, Nat.testBit_land,
        testBit_cbXh eq mh0 pv j (by omega)]
    refine ⟨by rw [e1]; exact hstep.1, by rw [e2]; exact hstep.2.1, ?_, hstep.2.2⟩
    rw [e3, e4]
    rcases Bool.eq_false_or_eq_true (eq.testBit (j + 1)) with he | he <;>
      rcases Bool.eq_false_or_eq_true ((cbMh eq mh0 pv).testBit j) with hc | hc <;>
        simp [he, hc] <;> simp [hc] at hstep <;> omega

theorem kernel_vstep (eq ph0 mh0 pv mv : Nat) (top h0 : Int) (j : Nat)
    (hj : j ≤ 63) (hdisj : pv &&& mv = 0)
    (h1 : (cbPhs eq ph0 mh0 pv mv).testBit j = true ↔
      hdVal top h0 pv mv eq j = 1)
    (h2 : (cbMhs eq mh0 pv).testBit j = true ↔ hdVal top h0 pv mv eq j = -1)
    (h4 : -1 ≤ hdVal top h0 pv mv eq j ∧ hdVal top h0 pv mv eq j ≤ 1) :
    vdelta (cbMhs eq mh0 pv ||| compl64 (cbXv eq mv ||| cbPhs eq ph0 mh0 pv mv))
        (cbPhs eq ph0 mh0 pv mv &&& cbXv eq mv) j =
      naiveCol top h0 pv mv eq (j + 1) - naiveCol top h0 pv mv eq j := by
  have hmin := naiveCol_succ_min top h0 pv mv eq j
  have hcell := cell_lemma (subCost eq j) (vdelta pv mv j)
    (hdVal top h0 pv mv eq j) (colVal top pv mv j)
    (naiveCol top h0 pv mv eq (j + 1)) (subCost_cases eq j)
    (vdelta_bounds pv mv j) h4 hmin
  have hnd : ¬(pv.testBit j = true ∧ mv.testBit j = true) := testBit_disjoint hdisj j
  have houtp : (cbMhs eq mh0 pv |||
      compl64 (cbXv eq mv ||| cbPhs eq ph0 mh0 pv mv)).testBit j =
      ((cbMhs eq mh0 pv).testBit j ||
        !((cbXv eq mv).testBit j || (cbPhs eq ph0 mh0 pv mv).testBit j)) := by
    rw [Nat.testBit_lor, testBit_compl64 _ _ (by omega), Nat.testBit_lor]
  have houtm : (cbPhs eq ph0 mh0 pv mv &&& cbXv eq mv).testBit j =
      ((cbPhs eq ph0 mh0 pv mv).testBit j && (cbXv eq mv).testBit j) :=
    Nat.testBit_land _ _ _
  have hxv : (cbXv eq mv).testBit j = (eq.testBit j || mv.testBit j) :=
    Nat.testBit_lor _ _ _
  have hrel : naiveCol top h0 pv mv eq j =
      colVal top pv mv j + hdVal top h0 pv mv eq j := by
    rw [hdVal]; ring
  rcases Bool.eq_false_or_eq_true (pv.testBit j) with hpb | hpb <;>
    rcases Bool.eq_false_or_eq_true (mv.testBit j) with hmb | hmb <;>
      rcases Bool.eq_false_or_eq_true (eq.testBit j) with heb | heb <;>
        rcases Bool.eq_false_or_eq_true ((cbPhs eq ph0 mh0 pv mv).testBit j)
          with hsb | hsb <;>
          rcases Bool.eq_false_or_eq_true ((cbMhs eq mh0 pv).testBit j)
            with htb | htb <;>
            first
              | (exfalso; exact hnd ⟨hpb, hmb⟩)
              | (simp [hsb, htb] at h1 h2 <;>
                  simp [vdelta, subCost, houtp, houtm, hxv, hpb, hmb, heb,
                    hsb, htb] at hcell ⊢ <;>
                  omega)

theorem kernel_unpack (ph0 mh0 pv mv eq : Nat) (top : Int)
    (hdisj : pv &&& mv = 0) (hph0 : ph0 ≤ 1) (hmh0 : mh0 ≤ 1)
    (hnb : ¬(ph0 = 1 ∧ mh0 = 1)) :
    ∀ j, j ≤ 64 →
      colVal (top + ((ph0 : Int) - (mh0 : Int)))
          (cbMhs eq mh0 pv ||| compl64 (cbXv eq mv ||| cbPhs eq ph0 mh0 pv mv))
          (cbPhs eq ph0 mh0 pv mv &&& cbXv eq mv) j =
        naiveCol top ((ph0 : Int) - (mh0 : Int)) pv mv eq j := by
  intro j
  induction j with
  | zero => intro _; rfl
  | succ j ih =>
    intro hj
    obtain ⟨i1, i2, _, i4⟩ :=
      kernel_inv ph0 mh0 pv mv eq top hdisj hph0 hmh0 hnb j (by omega)
    have hv := kernel_vstep eq ph0 mh0 pv mv top ((ph0 : Int) - (mh0 : Int)) j
      (by omega) hdisj i1 i2 i4
    have hc : colVal (top + ((ph0 : Int) - (mh0 : Int)))
        (cbMhs eq mh0 pv ||| compl64 (cbXv eq mv ||| cbPhs eq ph0 mh0 pv mv))
        (cbPhs eq ph0 mh0 pv mv &&& cbXv eq mv) (j + 1) =
        colVal (top + ((ph0 : Int) - (mh0 : Int)))
          (cbMhs eq mh0 pv ||| compl64 (cbXv eq mv ||| cbPhs eq ph0 mh0 pv mv))
          (cbPhs eq ph0 mh0 pv mv &&& cbXv eq mv) j +
          vdelta (cbMhs eq mh0 pv |||
              compl64 (cbXv eq mv ||| cbPhs eq ph0 mh0 pv mv))
            (cbPhs eq ph0 mh0 pv mv &&& cbXv eq mv) j := rfl
    rw [hc, ih (by omega), hv]
    ring

theorem shiftRight63_eq (x : Nat) (hx : x < M64) :
    x >>> 63 = (if x.testBit 63 then 1 else 0) := by
  have hq : x >>> 63 = x / 2 ^ 63 := Nat.shiftRight_eq_div_pow x 63
  have hxm : x < 2 ^ 64 := hx
  have hlt : x / 2 ^ 63 < 2 := by
    rw [Nat.div_lt_iff_lt_mul (Nat.two_pow_pos 63)]
    omega
  have hb := @Nat.testBit_to_div_mod 63 x
  rcases Bool.eq_false_or_eq_true (x.testBit 63) with h | h <;>
    simp [h] at hb ⊢ <;> omega

theorem cbXh_lt (eq mh0 pv : Nat) (hpv : pv < M64) (heq : eq < M64)
    (hmh0 : mh0 ≤ 1) : cbXh eq mh0 pv < M64 := by
  have h1 : cbEq1 eq mh0 < M64 := Nat.or_lt_two_pow heq (by show mh0 < 2 ^ 64; omega)
  exact Nat.or_lt_two_pow
    (Nat.xor_lt_two_pow (Nat.mod_lt _ (Nat.two_pow_pos 64)) hpv) h1

theorem compl64_lt (x : Nat) (hx : x < M64) : compl64 x < M64 :=
  Nat.xor_lt_two_pow hx
    (by rw [show M64 = 2 ^ 64 from rfl]; exact Nat.sub_lt (Nat.two_pow_pos 64) one_pos)

theorem cbPh_lt (eq mh0 pv mv : Nat) (hpv : pv < M64) (hmv : mv < M64)
    (heq : eq < M64) (hmh0 : mh0 ≤ 1) : cbPh eq mh0 pv mv < M64 :=
  Nat.or_lt_two_pow hmv
    (compl64_lt _ (Nat.or_lt_two_pow (cbXh_lt eq mh0 pv hpv heq hmh0) hpv))

theorem cbMh_lt (eq mh0 pv : Nat) (hpv : pv < M64) (heq : eq < M64)
    (hmh0 : mh0 ≤ 1) : cbMh eq mh0 pv < M64 :=
  Nat.and_lt_two_pow _ (cbXh_lt eq mh0 pv hpv heq hmh0)

/-- C2: for every one-word column state `(P, M)` with `P & M == 0`, every
equality mask `Eq`, and every carry-in horizontal difference `(Ph0, Mh0)`
(one carry bit each, not both set), `compute_block_simd` advances the column
exactly as the naive integer column-DP update: prefix-summing the plus-one and minus-one
vertical increments of the output `(P', M')` from the top anchor reproduces
the naive 64-row edit-distance column, and the returned `(Ph0, Mh0)` equal
the horizontal difference leaving the last row of the word. -/
theorem c2_compute_block_simd_refines_column_dp
    (ph0 mh0 pv mv eq : Nat) (top : Int)
    (hpv : pv < M64) (hmv : mv < M64) (heq : eq < M64)
    (hdisj : pv &&& mv = 0) (hph0 : ph0 ≤ 1) (hmh0 : mh0 ≤ 1)
    (hnb : ¬(ph0 = 1 ∧ mh0 = 1)) :
    (∀ j, j ≤ 64 →
      colVal (top + ((ph0 : Int) - (mh0 : Int)))
          (computeBlock ph0 mh0 pv mv eq).pv (computeBlock ph0 mh0 pv mv eq).mv j =
        naiveCol top ((ph0 : Int) - (mh0 : Int)) pv mv eq j) ∧
    (((computeBlock ph0 mh0 pv mv eq).phw : Int) -
        ((computeBlock ph0 mh0 pv mv eq).mhw : Int) =
      naiveCol top ((ph0 : Int) - (mh0 : Int)) pv mv eq 64 - colVal top pv mv 64) := by
  rw [computeBlock_eq]
  constructor
  · intro j hj
    exact kernel_unpack ph0 mh0 pv mv eq top hdisj hph0 hmh0 hnb j hj
  · obtain ⟨_, _, i3, i4⟩ :=
      kernel_inv ph0 mh0 pv mv eq top hdisj hph0 hmh0 hnb 63 (by omega)
    have hs := kernel_hstep eq mh0 pv mv top ((ph0 : Int) - (mh0 : Int)) 63
      (by omega) hdisj i3 i4
    have hphv := shiftRight63_eq _ (cbPh_lt eq mh0 pv mv hpv hmv heq hmh0)
    have hmhv := shiftRight63_eq _ (cbMh_lt eq mh0 pv hpv heq hmh0)
    have hrel : hdVal top ((ph0 : Int) - (mh0 : Int)) pv mv eq 64 =
        naiveCol top ((ph0 : Int) - (mh0 : Int)) pv mv eq 64 -
          colVal top pv mv 64 := rfl
    obtain ⟨hs1, hs2, hs3⟩ := hs
    norm_num at hs1 hs2 hs3
    rcases Bool.eq_false_or_eq_true ((cbPh eq mh0 pv mv).testBit 63) with h1 | h1 <;>
      rcases Bool.eq_false_or_eq_true ((cbMh eq mh0 pv).testBit 63) with h2 | h2 <;>
        simp [h1, h2] at hs1 hs2 hphv hmhv <;>
        simp [hphv, hmhv] <;>
        omega

theorem c2_compute_block_simd_refines_column_dp_witness :
    (3 : Nat) < M64 ∧ (4 : Nat) < M64 ∧ (5 : Nat) < M64 ∧
    ((3 : Nat) &&& (4 : Nat)) = 0 ∧ (1 : Nat) ≤ 1 ∧ (0 : Nat) ≤ 1 ∧
    ¬((1 : Nat) = 1 ∧ (0 : Nat) = 1) ∧
    ((∀ j, j ≤ 64 →
      colVal ((2 : Int) + (((1 : Nat) : Int) - ((0 : Nat) : Int)))
          (computeBlock 1 0 3 4 5).pv (computeBlock 1 0 3 4 5).mv j =
        naiveCol 2 (((1 : Nat) : Int) - ((0 : Nat) : Int)) 3 4 5 j) ∧
    (((computeBlock 1 0 3 4 5).phw : Int) -
        ((computeBlock 1 0 3 4 5).mhw : Int) =
      naiveCol 2 (((1 : Nat) : Int) - ((0 : Nat) : Int)) 3 4 5 64 -
        colVal 2 3 4 64)) :=
  ⟨by decide, by decide, by decide, by decide, by decide, by decide, by decide,
    c2_compute_block_simd_refines_column_dp 1 0 3 4 5 2 (by decide) (by decide)
      (by decide) (by decide) (by decide) (by decide) (by decide)⟩

/-- C8 counterexample: with carry-in words that are disjoint but not restricted
to a single carry bit (`ph0 = 2`), the kernel output violates `P & M == 0`.
The claim as stated, quantifying over all inputs with `pv & mv == 0` and
`ph0 & mh0 == 0`, is therefore false. -/
theorem c8_counterexample :
    ((1 : Nat) &&& (0 : Nat)) = 0 ∧ ((2 : Nat) &&& (0 : Nat)) = 0 ∧
    ¬((computeBlock 2 0 1 0 3).pv &&& (computeBlock 2 0 1 0 3).mv = 0) := by
  refine ⟨by decide, by decide, ?_⟩
  decide

theorem testBit_cbPhs_zero (eq ph0 mh0 pv mv : Nat) :
    (cbPhs eq ph0 mh0 pv mv).testBit 0 = ph0.testBit 0 := by
  rw [cbPhs, show M64 = 2 ^ 64 from rfl, Nat.testBit_mod_two_pow]
  simp [Nat.testBit_lor, Nat.testBit_shiftLeft]

theorem testBit_cbMhs_zero (eq mh0 pv : Nat) :
    (cbMhs eq mh0 pv).testBit 0 = mh0.testBit 0 := by
  rw [cbMhs, show M64 = 2 ^ 64 from rfl, Nat.testBit_mod_two_pow]
  simp [Nat.testBit_lor, Nat.testBit_shiftLeft]

theorem testBit_cbPhs_succ (eq ph0 mh0 pv mv : Nat) (j : Nat) (hj : j + 1 < 64)
    (hph0 : ph0 ≤ 1) :
    (cbPhs eq ph0 mh0 pv mv).testBit (j + 1) = (cbPh eq mh0 pv mv).testBit j := by
  rw [cbPhs, show M64 = 2 ^ 64 from rfl, Nat.testBit_mod_two_pow,
    Nat.testBit_lor, Nat.testBit_shiftLeft, testBit_le_one ph0 (j + 1) hph0 (by omega)]
  simp [hj]

theorem testBit_cbMhs_succ (eq mh0 pv : Nat) (j : Nat) (hj : j + 1 < 64)
    (hmh0 : mh0 ≤ 1) :
    (cbMhs eq mh0 pv).testBit (j + 1) = (cbMh eq mh0 pv).testBit j := by
  rw [cbMhs, show M64 = 2 ^ 64 from rfl, Nat.testBit_mod_two_pow,
    Nat.testBit_lor, Nat.testBit_shiftLeft, testBit_le_one mh0 (j + 1) hmh0 (by omega)]
  simp [hj]

theorem cbPh_cbMh_not_both (eq mh0 pv mv : Nat) (hdisj : pv &&& mv = 0) (k : Nat)
    (hk : k < 64) :
    ¬((cbPh eq mh0 pv mv).testBit k = true ∧ (cbMh eq mh0 pv).testBit k = true) := by
  rintro ⟨hp, hm⟩
  rw [cbMh, Nat.testBit_land, Bool.and_eq_true] at hm
  obtain ⟨hm1, hm2⟩ := hm
  rw [cbPh, Nat.testBit_lor, testBit_compl64 _ _ hk, Nat.testBit_lor] at hp
  rw [hm1, hm2] at hp
  simp at hp
  exact testBit_disjoint hdisj k ⟨hm1, hp⟩

/-- C8 amended: the kernel preserves disjointness of the plus and minus
vectors when the carry-in words are genuine carry bits (each in `{0, 1}`,
not both set), as they are in every use by the block algorithms: the output
column satisfies `P & M == 0` and the outgoing carries are again disjoint
carry bits. -/
theorem c8_kernel_preserves_disjointness
    (ph0 mh0 pv mv eq : Nat)
    (hpv : pv < M64) (hmv : mv < M64) (heq : eq < M64)
    (hdisj : pv &&& mv = 0) (hph0 : ph0 ≤ 1) (hmh0 : mh0 ≤ 1)
    (hio : ph0 &&& mh0 = 0) :
    ((computeBlock ph0 mh0 pv mv eq).pv &&& (computeBlock ph0 mh0 pv mv eq).mv = 0) ∧
    ((computeBlock ph0 mh0 pv mv eq).phw &&& (computeBlock ph0 mh0 pv mv eq).mhw = 0) ∧
    (computeBlock ph0 mh0 pv mv eq).phw ≤ 1 ∧
    (computeBlock ph0 mh0 pv mv eq).mhw ≤ 1 := by
  rw [computeBlock_eq]
  have hphsmhs : ∀ i, i < 64 →
      ¬((cbPhs eq ph0 mh0 pv mv).testBit i = true ∧
        (cbMhs eq mh0 pv).testBit i = true) := by
    intro i hi
    match i with
    | 0 =>
      rw [testBit_cbPhs_zero, testBit_cbMhs_zero]
      exact testBit_disjoint hio 0
    | k + 1 =>
      rw [testBit_cbPhs_succ eq ph0 mh0 pv mv k hi hph0,
        testBit_cbMhs_succ eq mh0 pv k hi hmh0]
      exact cbPh_cbMh_not_both eq mh0 pv mv hdisj k (by omega)
  refine ⟨?_, ?_, ?_, ?_⟩
  · apply Nat.eq_of_testBit_eq
    intro i
    rw [Nat.testBit_land, Nat.zero_testBit]
    by_cases hi : i < 64
    · rw [Nat.testBit_lor, testBit_compl64 _ _ hi, Nat.testBit_lor,
        Nat.testBit_land]
      have hnb := hphsmhs i hi
      rcases Bool.eq_false_or_eq_true ((cbPhs eq ph0 mh0 pv mv).testBit i)
        with h1 | h1 <;>
        rcases Bool.eq_false_or_eq_true ((cbMhs eq mh0 pv).testBit i)
          with h2 | h2 <;>
          rcases Bool.eq_false_or_eq_true ((cbXv eq mv).testBit i) with h3 | h3 <;>
            simp [h1, h2, h3] at hnb ⊢
    · have hphs : (cbPhs eq ph0 mh0 pv mv).testBit i = false := by
        apply Nat.testBit_lt_two_pow
        calc cbPhs eq ph0 mh0 pv mv < M64 := Nat.mod_lt _ (Nat.two_pow_pos 64)
          _ = 2 ^ 64 := rfl
          _ ≤ 2 ^ i := Nat.pow_le_pow_right (by omega) (by omega)
      rw [Nat.testBit_land, hphs]
      simp
  · have h1 := shiftRight63_eq _ (cbPh_lt eq mh0 pv mv hpv hmv heq hmh0)
    have h2 := shiftRight63_eq _ (cbMh_lt eq mh0 pv hpv heq hmh0)
    have hnb := cbPh_cbMh_not_both eq mh0 pv mv hdisj 63 (by omega)
    rcases Bool.eq_false_or_eq_true ((cbPh eq mh0 pv mv).testBit 63)
      with hb1 | hb1 <;>
      rcases Bool.eq_false_or_eq_true ((cbMh eq mh0 pv).testBit 63)
        with hb2 | hb2 <;>
        simp [hb1, hb2] at h1 h2 hnb ⊢ <;> simp [h1, h2]
  · have h1 := shiftRight63_eq _ (cbPh_lt eq mh0 pv mv hpv hmv heq hmh0)
    rcases Bool.eq_false_or_eq_true ((cbPh eq mh0 pv mv).testBit 63)
      with hb1 | hb1 <;> simp [hb1] at h1 <;> simp [h1]
  · have h2 := shiftRight63_eq _ (cbMh_lt eq mh0 pv hpv heq hmh0)
    rcases Bool.eq_false_or_eq_true ((cbMh eq mh0 pv).testBit 63)
      with hb2 | hb2 <;> simp [hb2] at h2 <;> simp [h2]

theorem c8_kernel_preserves_disjointness_witness :
    (6 : Nat) < M64 ∧ (9 : Nat) < M64 ∧ (12 : Nat) < M64 ∧
    ((6 : Nat) &&& (9 : Nat)) = 0 ∧ (0 : Nat) ≤ 1 ∧ (1 : Nat) ≤ 1 ∧
    ((0 : Nat) &&& (1 : Nat)) = 0 ∧
    (((computeBlock 0 1 6 9 12).pv &&& (computeBlock 0 1 6 9 12).mv = 0) ∧
    ((computeBlock 0 1 6 9 12).phw &&& (computeBlock 0 1 6 9 12).mhw = 0) ∧
    (computeBlock 0 1 6 9 12).phw ≤ 1 ∧
    (computeBlock 0 1 6 9 12).mhw ≤ 1) :=
  ⟨by decide, by decide, by decide, by decide, by decide, by decide, by decide,
    c8_kernel_preserves_disjointness 0 1 6 9 12 (by decide) (by decide)
      (by decide) (by decide) (by decide) (by decide) (by decide)⟩

/-- Pack the bits `f 0, ..., f (n-1)` into a word (bit `k` set iff `f k`). -/
def packBits (f : Nat → Bool) : Nat → Nat
  | 0 => 0
  | k + 1 => packBits f k ||| (if f k then 1 <<< k else 0)

theorem packBits_lt (f : Nat → Bool) : ∀ n, packBits f n < 2 ^ n
  | 0 => by simp [packBits]
  | n + 1 => by
    rw [packBits]
    have h1 := packBits_lt f n
    have h2 : (2 : Nat) ^ n < 2 ^ (n + 1) := by
      have := Nat.pow_succ 2 n; omega
    refine Nat.or_lt_two_pow (by omega) ?_
    rcases Bool.eq_false_or_eq_true (f n) with h | h
    · rw [if_pos h, Nat.one_shiftLeft]
      exact h2
    · rw [if_neg (by rw [h]; exact Bool.false_ne_true)]
      exact Nat.two_pow_pos (n + 1)

theorem testBit_packBits (f : Nat → Bool) :
    ∀ n k, (packBits f n).testBit k = (decide (k < n) && f k)
  | 0, k => by simp [packBits]
  | n + 1, k => by
    rw [packBits, Nat.testBit_lor, testBit_packBits f n k]
    rcases Nat.lt_trichotomy k n with hk | hk | hk
    · have h1 : (if f n then 1 <<< n else 0).testBit k = false := by
        rcases Bool.eq_false_or_eq_true (f n) with h | h
        · rw [if_pos h, Nat.one_shiftLeft]
          exact Nat.testBit_two_pow_of_ne (by omega)
        · rw [if_neg (by rw [h]; exact Bool.false_ne_true)]
          exact Nat.zero_testBit k
      rw [h1]
      have h2 : decide (k < n) = true := by simp [hk]
      have h3 : decide (k < n + 1) = true := by simp [Nat.lt_succ_of_lt hk]
      rw [h2, h3]
      simp
    · subst hk
      have h1 : (if f k then 1 <<< k else 0).testBit k = f k := by
        rcases Bool.eq_false_or_eq_true (f k) with h | h
        · rw [if_pos h, Nat.one_shiftLeft, h]
          exact Nat.testBit_two_pow_self
        · rw [if_neg (by rw [h]; exact Bool.false_ne_true)]
          rw [h]
          exact Nat.zero_testBit k
      rw [h1]
      simp
    · have h1 : (if f n then 1 <<< n else 0).testBit k = false := by
        rcases Bool.eq_false_or_eq_true (f n) with h | h
        · rw [if_pos h, Nat.one_shiftLeft]
          exact Nat.testBit_two_pow_of_ne (by omega)
        · rw [if_neg (by rw [h]; exact Bool.false_ne_true)]
          exact Nat.zero_testBit k
      rw [h1]
      have h2 : decide (k < n) = false := by
        simp only [decide_eq_false_iff_not, not_lt]
        omega
      have h3 : decide (k < n + 1) = false := by
        simp only [decide_eq_false_iff_not, not_lt]
        omega
      rw [h2, h3]
      simp

/-- Smallest multiple of 64 that is at least `n` (`next_multiple_of(W)`). -/
def nextMult64 (n : Nat) : Nat := ((n + 63) / 64) * 64

/-- The `get_char` table of `ScatterProfile::build`: compress an `a`-byte to
the `[0,1,2,3]` alphabet; any other byte panics (`None`). -/
def getCharS : Nat → Option Nat
  | 97 | 65 => some 0
  | 99 | 67 => some 1
  | 116 | 84 => some 2
  | 103 | 71 => some 3
  | _ => none

/-- The `get_mask` table of `ScatterProfile::build`: per-character one-hot
(or many-hot, for ambiguity codes) mask over the four compressed characters;
any other byte panics (`None`). -/
def getMaskS : Nat → Option (Nat × Nat × Nat × Nat)
  | 97 | 65 => some (1, 0, 0, 0)
  | 99 | 67 => some (0, 1, 0, 0)
  | 116 | 84 => some (0, 0, 1, 0)
  | 103 | 71 => some (0, 0, 0, 1)
  | 110 | 78 | 42 => some (1, 1, 1, 1)
  | 121 | 89 => some (0, 1, 1, 0)
  | 114 | 82 => some (1, 0, 0, 1)
  | _ => none

/-- Component `i` of a `[B; 4]` scatter-profile word. -/
def w4get : Nat × Nat × Nat × Nat → Nat → Nat
  | (x, _, _, _), 0 => x
  | (_, x, _, _), 1 => x
  | (_, _, x, _), 2 => x
  | (_, _, _, x), _ => x

/-- Total wrapper of `get_mask` (only evaluated on valid bytes). -/
def getMaskSD (c : Nat) : Nat × Nat × Nat × Nat := (getMaskS c).getD (0, 0, 0, 0)

/-- Whether component `i` of the mask of byte `c` is set. -/
def maskBit (c : Nat) (i : Nat) : Bool := w4get (getMaskSD c) i = 1

/-- Whether bit `k` of component `i` of scatter-profile word `w` is set: row
`j = 64*w + k` holds a `b`-character whose mask has component `i`, or `j` is
a tail row (`|b| <= j < nextMult64 |b|`). -/
def scatterPred (b : List Nat) (i w k : Nat) : Bool :=
  if 64 * w + k < b.length then maskBit (b.getD (64 * w + k) 0) i
  else decide (64 * w + k < nextMult64 b.length)

/-- Component `i` of scatter-profile word `w` of `b`.  This is the per-word
value produced by the two OR-loops of `ScatterProfile::build` (each row `j`
only touches word `j / 64`, and the `|=` updates accumulate exactly these
bits). -/
def scatterComponent (b : List Nat) (i : Nat) (w : Nat) : Nat :=
  packBits (scatterPred b i w) 64

/-- Map a panicking per-element function over a list: `none` as soon as one
element panics (the Rust `iter().map(...)` panics on the first bad byte). -/
def mapO {α β : Type} (f : α → Option β) : List α → Option (List β)
  | [] => some []
  | x :: xs =>
    match f x, mapO f xs with
    | some y, some ys => some (y :: ys)
    | _, _ => none

/-- `ScatterProfile::build`: compress `a`, build the per-word 4-component
masks of `b` with tail rows beyond `|b|` set in all four components.
`None` models the `panic!` on an invalid byte. -/
def scatterBuild (a b : List Nat) :
    Option (List Nat × List (Nat × Nat × Nat × Nat)) :=
  match mapO getCharS a, mapO getMaskS b with
  | some pa, some _ =>
    some (pa, (List.range ((b.length + 63) / 64)).map (fun w =>
      (scatterComponent b 0 w, scatterComponent b 1 w,
        scatterComponent b 2 w, scatterComponent b 3 w)))
  | _, _ => none

/-- `ScatterProfile::eq`: index the word by the compressed `a`-character. -/
def scatterEq (ca : Nat) (cb : Nat × Nat × Nat × Nat) : Nat := w4get cb ca

/-- `ScatterProfile::is_match`. -/
def scatterIsMatch (pa : List Nat) (pb : List (Nat × Nat × Nat × Nat))
    (i j : Nat) : Bool :=
  (scatterEq (pa.getD i 0) (pb.getD (j / 64) (0, 0, 0, 0)) &&&
    (1 <<< (j % 64))) ≠ 0

/-- Rank of a byte in the `RankTransform` over the alphabet `ACGT`
(`A → 0, C → 1, G → 2, T → 3`); any other byte (lowercase and ambiguity
codes included) panics inside the `bio` crate (`None`). -/
def rankACGT : Nat → Option Nat
  | 65 => some 0
  | 67 => some 1
  | 71 => some 2
  | 84 => some 3
  | _ => none

/-- `(0 as u64).wrapping_sub(x)` for `x ∈ {0, 1}`. -/
def negWrap (x : Nat) : Nat := (M64 - x) % M64

/-- Bit `k` of the first plane of bit-profile word `w`: the negated low rank
bit of the `b`-character at row `64*w + k`; tail rows stay `0`. -/
def bitPred0 (b : List Nat) (w k : Nat) : Bool :=
  if 64 * w + k < b.length then
    (((rankACGT (b.getD (64 * w + k) 0)).getD 0 &&& 1) ^^^ 1) = 1
  else false

/-- Bit `k` of the second plane of bit-profile word `w`: the negated high
rank bit of the `b`-character at row `64*w + k`; tail rows stay `0`. -/
def bitPred1 (b : List Nat) (w k : Nat) : Bool :=
  if 64 * w + k < b.length then
    ((((rankACGT (b.getD (64 * w + k) 0)).getD 0 >>> 1) &&& 1) ^^^ 1) = 1
  else false

/-- The `b`-profile word `w` of `BitProfile::build`: the two planes store the
negated rank bits of each `b`-character; tail rows are left at `0`. -/
def bitPB (b : List Nat) (w : Nat) : Nat × Nat :=
  (packBits (bitPred0 b w) 64, packBits (bitPred1 b w) 64)

/-- The exploded `Bits` encoding of one `a`-character in `BitProfile`. -/
def bitsOfA (c : Nat) : Option (Nat × Nat) :=
  (rankACGT c).map (fun r => (negWrap (r &&& 1), negWrap ((r >>> 1) &&& 1)))

/-- `BitProfile::build`: explode each `a`-character into two full-width sign
masks of its rank bits, and pack the negated rank bits of `b` per word.
`None` models the panic of the rank transform on a byte outside `ACGT`. -/
def bitBuild (a b : List Nat) :
    Option (List (Nat × Nat) × List (Nat × Nat)) :=
  match mapO bitsOfA a, mapO rankACGT b with
  | some pa, some _ =>
    some (pa, (List.range ((b.length + 63) / 64)).map (bitPB b))
  | _, _ => none

/-- `BitProfile::eq`. -/
def bitEq (ca cb : Nat × Nat) : Nat := (ca.1 ^^^ cb.1) &&& (ca.2 ^^^ cb.2)

/-- `BitProfile::is_match`. -/
def bitIsMatch (pa pb : List (Nat × Nat)) (i j : Nat) : Bool :=
  (bitEq (pa.getD i (0, 0)) (pb.getD (j / 64) (0, 0)) &&& (1 <<< (j % 64))) ≠ 0

theorem mapO_isSome {α β : Type} (f : α → Option β) :
    ∀ l : List α, (mapO f l).isSome = true ↔ ∀ x ∈ l, (f x).isSome = true
  | [] => by simp [mapO]
  | x :: xs => by
    have ih := mapO_isSome f xs
    rw [mapO]
    rcases hf : f x with _ | y
    · simp [hf]
    · rcases hm : mapO f xs with _ | ys
      · rw [hm] at ih
        simp [hf] at ih ⊢
        simpa using ih
      · rw [hm] at ih
        simp [hf] at ih ⊢
        exact ih

theorem mapO_length {α β : Type} (f : α → Option β) :
    ∀ (l : List α) (res : List β), mapO f l = some res → res.length = l.length
  | [], res => by
    rw [mapO]
    rintro h
    cases h
    rfl
  | x :: xs, res => by
    rw [mapO]
    rcases hf : f x with _ | y
    · simp
    · rcases hm : mapO f xs with _ | ys
      · simp
      · intro h
        cases h
        simp [mapO_length f xs ys hm]

theorem mapO_getD {α β : Type} (f : α → Option β) (dx : α) (dy : β) :
    ∀ (l : List α) (res : List β), mapO f l = some res →
      ∀ i, i < l.length → f (l.getD i dx) = some (res.getD i dy)
  | [], res => by simp
  | x :: xs, res => by
    rw [mapO]
    rcases hf : f x with _ | y
    · simp
    · rcases hm : mapO f xs with _ | ys
      · simp
      · intro h
        cases h
        intro i hi
        match i with
        | 0 => simpa [List.getD_cons_zero] using hf
        | i + 1 =>
          rw [List.getD_cons_succ, List.getD_cons_succ]
          exact mapO_getD f dx dy xs ys hm i (by simpa using hi)

theorem mapO_mem {α β : Type} (f : α → Option β) :
    ∀ (l : List α) (res : List β), mapO f l = some res →
      ∀ y ∈ res, ∃ x ∈ l, f x = some y
  | [], res => by
    rw [mapO]
    rintro h
    cases h
    simp
  | x :: xs, res => by
    rw [mapO]
    rcases hf : f x with _ | y
    · simp
    · rcases hm : mapO f xs with _ | ys
      · simp
      · intro h
        cases h
        intro z hz
        rcases List.mem_cons.mp hz with rfl | hz2
        · exact ⟨x, List.mem_cons_self x xs, hf⟩
        · obtain ⟨w, hw1, hw2⟩ := mapO_mem f xs ys hm z hz2
          exact ⟨w, List.mem_cons_of_mem x hw1, hw2⟩

theorem getD_map_range {β : Type} (g : Nat → β) (n w : Nat) (hw : w < n) (d : β) :
    ((List.range n).map g).getD w d = g w := by
  rw [List.getD_eq_getElem?_getD]
  rw [List.getElem?_eq_getElem (by simpa using hw)]
  simp

/-- Bytes accepted for `a` by `ScatterProfile::build` (`get_char`). -/
def scatterABytes : List Nat := [97, 65, 99, 67, 116, 84, 103, 71]

/-- Bytes accepted for `b` by `ScatterProfile::build` (`get_mask`). -/
def scatterBBytes : List Nat :=
  [97, 65, 99, 67, 116, 84, 103, 71, 110, 78, 42, 121, 89, 114, 82]

/-- Bytes accepted by the `ACGT` rank transform of `BitProfile::build`. -/
def acgtBytes : List Nat := [65, 67, 71, 84]

theorem getCharS_isSome_iff (c : Nat) :
    (getCharS c).isSome = true ↔ c ∈ scatterABytes := by
  constructor
  · intro h
    unfold getCharS at h
    split at h <;> simp_all [scatterABytes]
  · intro h
    simp [scatterABytes] at h
    rcases h with rfl | rfl | rfl | rfl | rfl | rfl | rfl | rfl <;> decide

theorem getMaskS_isSome_iff (c : Nat) :
    (getMaskS c).isSome = true ↔ c ∈ scatterBBytes := by
  constructor
  · intro h
    unfold getMaskS at h
    split at h <;> simp_all [scatterBBytes]
  · intro h
    simp [scatterBBytes] at h
    rcases h with rfl | rfl | rfl | rfl | rfl | rfl | rfl | rfl | rfl | rfl |
      rfl | rfl | rfl | rfl | rfl <;> decide

theorem rankACGT_isSome_iff (c : Nat) :
    (rankACGT c).isSome = true ↔ c ∈ acgtBytes := by
  constructor
  · intro h
    unfold rankACGT at h
    split at h <;> simp_all [acgtBytes]
  · intro h
    simp [acgtBytes] at h
    rcases h with rfl | rfl | rfl | rfl <;> decide

theorem bitsOfA_isSome_iff (c : Nat) :
    (bitsOfA c).isSome = true ↔ c ∈ acgtBytes := by
  rw [← rankACGT_isSome_iff]
  rw [bitsOfA]
  rcases h : rankACGT c with _ | r <;> simp [h]

theorem getCharS_le (c r : Nat) (h : getCharS c = some r) : r ≤ 3 := by
  unfold getCharS at h
  split at h <;> simp_all <;> omega

theorem rankACGT_le (c r : Nat) (h : rankACGT c = some r) : r ≤ 3 := by
  unfold rankACGT at h
  split at h <;> simp_all <;> omega

theorem scatterBuild_parts (a b : List Nat) (pa : List Nat)
    (pb : List (Nat × Nat × Nat × Nat)) (h : scatterBuild a b = some (pa, pb)) :
    mapO getCharS a = some pa ∧
    pb = (List.range ((b.length + 63) / 64)).map (fun w =>
      (scatterComponent b 0 w, scatterComponent b 1 w,
        scatterComponent b 2 w, scatterComponent b 3 w)) := by
  unfold scatterBuild at h
  split at h <;> simp_all

theorem scatterBuild_b_ok (a b : List Nat) (pa : List Nat)
    (pb : List (Nat × Nat × Nat × Nat)) (h : scatterBuild a b = some (pa, pb)) :
    (mapO getMaskS b).isSome = true := by
  unfold scatterBuild at h
  split at h <;> simp_all

theorem bitBuild_parts (a b : List Nat) (qa qb : List (Nat × Nat))
    (h : bitBuild a b = some (qa, qb)) :
    mapO bitsOfA a = some qa ∧ (mapO rankACGT b).isSome = true ∧
    qb = (List.range ((b.length + 63) / 64)).map (bitPB b) := by
  unfold bitBuild at h
  split at h <;> simp_all

theorem decide_land_shift_ne (x k : Nat) :
    (decide ((x &&& (1 <<< k)) ≠ 0)) = x.testBit k := by
  rw [Nat.one_shiftLeft, Nat.and_two_pow]
  rcases Bool.eq_false_or_eq_true (x.testBit k) with h | h <;> simp [h]

theorem w4get_of_le_three (c0 c1 c2 c3 r : Nat) (hr : r ≤ 3) :
    w4get (c0, c1, c2, c3) r =
      (if r = 0 then c0 else if r = 1 then c1 else if r = 2 then c2 else c3) := by
  interval_cases r <;> rfl

theorem scatterIsMatch_char (a b : List Nat) (pa : List Nat)
    (pb : List (Nat × Nat × Nat × Nat)) (h : scatterBuild a b = some (pa, pb))
    (i j : Nat) (hi : i < a.length) (hj : j < b.length) :
    scatterIsMatch pa pb i j = maskBit (b.getD j 0) (pa.getD i 0) ∧
    getCharS (a.getD i 0) = some (pa.getD i 0) := by
  obtain ⟨hpa, hpb⟩ := scatterBuild_parts a b pa pb h
  have hchar := mapO_getD getCharS 0 0 a pa hpa i hi
  have hr : pa.getD i 0 ≤ 3 := getCharS_le _ _ hchar
  refine ⟨?_, hchar⟩
  have hwords : j / 64 < (b.length + 63) / 64 := by omega
  rw [scatterIsMatch, hpb, getD_map_range _ _ _ hwords]
  rw [decide_land_shift_ne]
  rw [scatterEq]
  have hjj : 64 * (j / 64) + j % 64 = j := by omega
  have hcomp : ∀ ii : Nat, (scatterComponent b ii (j / 64)).testBit (j % 64) =
      maskBit (b.getD j 0) ii := by
    intro ii
    rw [scatterComponent, testBit_packBits]
    have hlt : (decide (j % 64 < 64)) = true := by simp [Nat.mod_lt]
    rw [hlt, Bool.true_and, scatterPred, hjj, if_pos hj]
  rcases (show pa.getD i 0 = 0 ∨ pa.getD i 0 = 1 ∨ pa.getD i 0 = 2 ∨
      pa.getD i 0 = 3 by omega) with h0 | h0 | h0 | h0 <;> rw [h0]
  · exact hcomp 0
  · exact hcomp 1
  · exact hcomp 2
  · exact hcomp 3

theorem testBit_negWrap (x k : Nat) (hx : x ≤ 1) (hk : k < 64) :
    (negWrap x).testBit k = decide (x = 1) := by
  have h2 : x = 0 ∨ x = 1 := by omega
  rcases h2 with rfl | rfl
  · rw [negWrap, show (M64 - 0) % M64 = 0 by rw [Nat.sub_zero, Nat.mod_self]]
    simp
  · rw [negWrap]
    have h1 : M64 - 1 < M64 := Nat.sub_lt (Nat.two_pow_pos 64) one_pos
    rw [Nat.mod_eq_of_lt h1]
    rw [show M64 - 1 = 2 ^ 64 - 1 from rfl, Nat.testBit_two_pow_sub_one]
    simp [hk]

theorem bitIsMatch_char (a b : List Nat) (qa qb : List (Nat × Nat))
    (h : bitBuild a b = some (qa, qb))
    (i j : Nat) (hi : i < a.length) (hj : j < b.length) :
    ∃ ra rb, rankACGT (a.getD i 0) = some ra ∧ rankACGT (b.getD j 0) = some rb ∧
      bitIsMatch qa qb i j = decide (ra = rb) := by
  obtain ⟨hqa, hbv, hqb⟩ := bitBuild_parts a b qa qb h
  have hget := mapO_getD bitsOfA 0 (0, 0) a qa hqa i hi
  rcases hra : rankACGT (a.getD i 0) with _ | ra
  · rw [bitsOfA, hra] at hget
    simp at hget
  rcases hu : mapO rankACGT b with _ | u
  · rw [hu] at hbv
    simp at hbv
  have hrb := mapO_getD rankACGT 0 0 b u hu j hj
  refine ⟨ra, u.getD j 0, rfl, hrb, ?_⟩
  have hral : ra ≤ 3 := rankACGT_le _ _ hra
  have hrbl : u.getD j 0 ≤ 3 := rankACGT_le _ _ hrb
  rw [bitsOfA, hra, Option.map_some'] at hget
  have hpair : qa.getD i (0, 0) =
      (negWrap (ra &&& 1), negWrap ((ra >>> 1) &&& 1)) :=
    (Option.some.inj hget).symm
  have hwords : j / 64 < (b.length + 63) / 64 := by omega
  have hjj : 64 * (j / 64) + j % 64 = j := by omega
  have hk64 : j % 64 < 64 := by omega
  rw [bitIsMatch, hqb, getD_map_range _ _ _ hwords, decide_land_shift_ne,
    hpair]
  rw [bitEq, Nat.testBit_land, Nat.testBit_xor, Nat.testBit_xor]
  have hfst : (bitPB b (j / 64)).1 = packBits (bitPred0 b (j / 64)) 64 := rfl
  have hsnd : (bitPB b (j / 64)).2 = packBits (bitPred1 b (j / 64)) 64 := rfl
  have hb1 : (packBits (bitPred0 b (j / 64)) 64).testBit (j % 64) =
      decide ((((u.getD j 0) &&& 1) ^^^ 1) = 1) := by
    rw [testBit_packBits]
    have hlt : (decide (j % 64 < 64)) = true := by simp [hk64]
    rw [hlt, Bool.true_and, bitPred0, hjj, if_pos hj, hrb]
    rfl
  have hb2 : (packBits (bitPred1 b (j / 64)) 64).testBit (j % 64) =
      decide (((((u.getD j 0) >>> 1) &&& 1) ^^^ 1) = 1) := by
    rw [testBit_packBits]
    have hlt : (decide (j % 64 < 64)) = true := by simp [hk64]
    rw [hlt, Bool.true_and, bitPred1, hjj, if_pos hj, hrb]
    rfl
  rw [show ((negWrap (ra &&& 1), negWrap ((ra >>> 1) &&& 1)) : Nat × Nat).1 =
    negWrap (ra &&& 1) from rfl]
  rw [show ((negWrap (ra &&& 1), negWrap ((ra >>> 1) &&& 1)) : Nat × Nat).2 =
    negWrap ((ra >>> 1) &&& 1) from rfl]
  rw [hfst, hsnd, hb1, hb2]
  rw [testBit_negWrap _ _ Nat.and_le_right hk64,
    testBit_negWrap _ _ Nat.and_le_right hk64]
  rcases (show ra = 0 ∨ ra = 1 ∨ ra = 2 ∨ ra = 3 by omega)
    with rfl | rfl | rfl | rfl <;>
    rcases (show u.getD j 0 = 0 ∨ u.getD j 0 = 1 ∨ u.getD j 0 = 2 ∨
      u.getD j 0 = 3 by omega) with h9 | h9 | h9 | h9 <;> rw [h9] <;> decide

/-- C3 counterexample: for `A = "A"`, `B = "C"`, the `BitProfile` leaves the
tail row `j = 1` (with `|B| = 1 ≤ j < 64`) encoded as zeros in both planes,
and the equality bit of the `A`-character against the last profile word is
`0`, not `1`: tail rows are not set to match in the bit encoding. -/
theorem c3_counterexample :
    bitBuild [65] [67] = some ([(0, 0)], [(0, 1)]) ∧
    ([67] : List Nat).length ≤ 1 ∧ 1 < nextMult64 ([67] : List Nat).length ∧
    (bitEq (0, 0) (0, 1)).testBit (1 % 64) = false := by
  refine ⟨by decide, by decide, by decide, by decide⟩

/-- C3 amended: after `build(A, B)`, every tail row `|B| ≤ j < 64·⌈|B|/64⌉`
is set to match in the Scatter encoding (for every compressed character of
`A`, the corresponding `eq` bit is `1`); in the Bit encoding the tail rows
are instead left as zero words, which decode as the negated encoding of the
rank-3 character, so a tail row matches an `A`-character exactly when that
character is `T` (byte 84). -/
theorem c3_tail_rows (a b : List Nat)
    (pa : List Nat) (pb : List (Nat × Nat × Nat × Nat))
    (hS : scatterBuild a b = some (pa, pb))
    (qa qb : List (Nat × Nat)) (hB : bitBuild a b = some (qa, qb))
    (j : Nat) (hj1 : b.length ≤ j) (hj2 : j < nextMult64 b.length) :
    (∀ ca ∈ pa, (scatterEq ca (pb.getD (j / 64) (0, 0, 0, 0))).testBit (j % 64) =
      true) ∧
    (∀ i, i < a.length →
      ((bitEq (qa.getD i (0, 0)) (qb.getD (j / 64) (0, 0))).testBit (j % 64) =
          true ↔ a.getD i 0 = 84)) := by
  have hwords : j / 64 < (b.length + 63) / 64 := by
    have : j < ((b.length + 63) / 64) * 64 := by
      rw [show ((b.length + 63) / 64) * 64 = nextMult64 b.length from rfl]
      exact hj2
    omega
  have hjj : 64 * (j / 64) + j % 64 = j := by omega
  have hk64 : (decide (j % 64 < 64)) = true := by simp [Nat.mod_lt]
  constructor
  · intro ca hca
    obtain ⟨hpa, hpb⟩ := scatterBuild_parts a b pa pb hS
    obtain ⟨c, _, hc⟩ := mapO_mem getCharS a pa hpa ca hca
    have hle : ca ≤ 3 := getCharS_le _ _ hc
    rw [hpb, getD_map_range _ _ _ hwords, scatterEq]
    have hcomp : ∀ ii : Nat,
        (scatterComponent b ii (j / 64)).testBit (j % 64) = true := by
      intro ii
      rw [scatterComponent, testBit_packBits, hk64, Bool.true_and, scatterPred,
        hjj, if_neg (by omega)]
      simp
      exact hj2
    rcases (show ca = 0 ∨ ca = 1 ∨ ca = 2 ∨ ca = 3 by omega)
      with h0 | h0 | h0 | h0 <;> rw [h0]
    · exact hcomp 0
    · exact hcomp 1
    · exact hcomp 2
    · exact hcomp 3
  · intro i hi
    obtain ⟨hqa, hbv, hqb⟩ := bitBuild_parts a b qa qb hB
    have hget := mapO_getD bitsOfA 0 (0, 0) a qa hqa i hi
    rcases hra : rankACGT (a.getD i 0) with _ | ra
    · rw [bitsOfA, hra] at hget
      simp at hget
    rw [bitsOfA, hra, Option.map_some'] at hget
    have hpair : qa.getD i (0, 0) =
        (negWrap (ra &&& 1), negWrap ((ra >>> 1) &&& 1)) :=
      (Option.some.inj hget).symm
    have hral : ra ≤ 3 := rankACGT_le _ _ hra
    rw [hqb, getD_map_range _ _ _ hwords, hpair]
    rw [bitEq, Nat.testBit_land, Nat.testBit_xor, Nat.testBit_xor]
    have hfst : (bitPB b (j / 64)).1 = packBits (bitPred0 b (j / 64)) 64 := rfl
    have hsnd : (bitPB b (j / 64)).2 = packBits (bitPred1 b (j / 64)) 64 := rfl
    have hb1 : (packBits (bitPred0 b (j / 64)) 64).testBit (j % 64) = false := by
      rw [testBit_packBits, hk64, Bool.true_and, bitPred0, hjj,
        if_neg (by omega)]
    have hb2 : (packBits (bitPred1 b (j / 64)) 64).testBit (j % 64) = false := by
      rw [testBit_packBits, hk64, Bool.true_and, bitPred1, hjj,
        if_neg (by omega)]
    rw [show ((negWrap (ra &&& 1), negWrap ((ra >>> 1) &&& 1)) : Nat × Nat).1 =
      negWrap (ra &&& 1) from rfl]
    rw [show ((negWrap (ra &&& 1), negWrap ((ra >>> 1) &&& 1)) : Nat × Nat).2 =
      negWrap ((ra >>> 1) &&& 1) from rfl]
    rw [hfst, hsnd, hb1, hb2]
    rw [testBit_negWrap _ _ Nat.and_le_right (by omega),
      testBit_negWrap _ _ Nat.and_le_right (by omega)]
    have hchar : ∀ r, rankACGT (a.getD i 0) = some r →
        (a.getD i 0 = 84 ↔ r = 3) := by
      intro r hr
      unfold rankACGT at hr
      split at hr <;> simp_all <;> omega
    rw [Bool.xor_false, Bool.xor_false]
    simp only [List.getD_eq_getElem?_getD] at hchar hra
    rcases (show ra = 0 ∨ ra = 1 ∨ ra = 2 ∨ ra = 3 by omega)
      with rfl | rfl | rfl | rfl <;>
      simp [hchar _ hra]

theorem c3_tail_rows_witness :
    scatterBuild [65] [67] =
      some ([0], [(scatterComponent [67] 0 0, scatterComponent [67] 1 0,
        scatterComponent [67] 2 0, scatterComponent [67] 3 0)]) ∧
    bitBuild [65] [67] = some ([(0, 0)], [(0, 1)]) ∧
    ([67] : List Nat).length ≤ 1 ∧ 1 < nextMult64 ([67] : List Nat).length ∧
    ((∀ ca ∈ ([0] : List Nat),
      (scatterEq ca (([(scatterComponent [67] 0 0, scatterComponent [67] 1 0,
        scatterComponent [67] 2 0, scatterComponent [67] 3 0)] :
          List (Nat × Nat × Nat × Nat)).getD (1 / 64) (0, 0, 0, 0))).testBit
        (1 % 64) = true) ∧
    (∀ i, i < ([65] : List Nat).length →
      ((bitEq (([((0 : Nat), (0 : Nat))] : List (Nat × Nat)).getD i (0, 0))
          (([((0 : Nat), (1 : Nat))] : List (Nat × Nat)).getD (1 / 64) (0, 0))).testBit
          (1 % 64) = true ↔ ([65] : List Nat).getD i 0 = 84))) :=
  ⟨by decide, by decide, by decide, by decide,
    c3_tail_rows [65] [67] [0]
      [(scatterComponent [67] 0 0, scatterComponent [67] 1 0,
        scatterComponent [67] 2 0, scatterComponent [67] 3 0)]
      (by decide) [(0, 0)] [(0, 1)] (by decide) 1 (by decide) (by decide)⟩

theorem getD_mem {α : Type} (l : List α) (n : Nat) (d : α) (h : n < l.length) :
    l.getD n d ∈ l := by
  rw [List.getD_eq_getElem _ _ h]
  exact List.getElem_mem h

/-- C5 counterexample: the ambiguity code `N` (byte 78) in `A` makes
`ScatterProfile::build` panic (`get_char` has no case for it), and the
lowercase base `a` (byte 97) in `A` makes `BitProfile::build` panic (the
rank transform only knows uppercase `ACGT`).  The claim that both builds
succeed on upper- or lowercase `ACGT` plus `N`, `Y`, `R` in either sequence
is therefore false. -/
theorem c5_counterexample :
    scatterBuild [78] [65] = none ∧ bitBuild [97] [65] = none := by
  refine ⟨by decide, by decide⟩

theorem maskBit_compat_nyr :
    ∀ ca ∈ scatterABytes,
      (∀ cb ∈ ([110, 78, 42] : List Nat),
        maskBit cb ((getCharS ca).getD 0) = true) ∧
      (∀ cb ∈ ([121, 89] : List Nat),
        maskBit cb ((getCharS ca).getD 0) =
          decide (ca ∈ ([99, 67, 116, 84] : List Nat))) ∧
      (∀ cb ∈ ([114, 82] : List Nat),
        maskBit cb ((getCharS ca).getD 0) =
          decide (ca ∈ ([97, 65, 103, 71] : List Nat))) := by
  decide

/-- C5 amended: `ScatterProfile::build` succeeds exactly when every `A`-byte
is an upper- or lowercase `ACGT` base (ambiguity codes in `A` are fatal) and
every `B`-byte is a base or one of `N`, `Y`, `R`, `*`; `BitProfile::build`
succeeds exactly when both sequences use only uppercase `ACGT`.  For
successful scatter builds, an ambiguity code occurring in `B` is treated as
equal to its compatible subset: `N` matches every base, `Y` matches `C`/`T`,
`R` matches `A`/`G`. -/
theorem c5_profile_input_validation (a b : List Nat) :
    ((scatterBuild a b).isSome = true ↔
      ((∀ c ∈ a, c ∈ scatterABytes) ∧ (∀ c ∈ b, c ∈ scatterBBytes))) ∧
    ((bitBuild a b).isSome = true ↔
      ((∀ c ∈ a, c ∈ acgtBytes) ∧ (∀ c ∈ b, c ∈ acgtBytes))) ∧
    (∀ pa pb, scatterBuild a b = some (pa, pb) →
      ∀ i j, i < a.length → j < b.length →
        ((b.getD j 0 ∈ ([110, 78, 42] : List Nat) →
            scatterIsMatch pa pb i j = true) ∧
          (b.getD j 0 ∈ ([121, 89] : List Nat) →
            scatterIsMatch pa pb i j =
              decide (a.getD i 0 ∈ ([99, 67, 116, 84] : List Nat))) ∧
          (b.getD j 0 ∈ ([114, 82] : List Nat) →
            scatterIsMatch pa pb i j =
              decide (a.getD i 0 ∈ ([97, 65, 103, 71] : List Nat))))) := by
  refine ⟨?_, ?_, ?_⟩
  · have hsh : (scatterBuild a b).isSome = true ↔
        ((mapO getCharS a).isSome = true ∧ (mapO getMaskS b).isSome = true) := by
      rcases h1 : mapO getCharS a with _ | pa2 <;>
        rcases h2 : mapO getMaskS b with _ | u2 <;>
          simp [scatterBuild, h1, h2]
    rw [hsh, mapO_isSome, mapO_isSome]
    exact and_congr
      (forall_congr' fun c => imp_congr_right fun _ => getCharS_isSome_iff c)
      (forall_congr' fun c => imp_congr_right fun _ => getMaskS_isSome_iff c)
  · have hsh : (bitBuild a b).isSome = true ↔
        ((mapO bitsOfA a).isSome = true ∧ (mapO rankACGT b).isSome = true) := by
      rcases h1 : mapO bitsOfA a with _ | pa2 <;>
        rcases h2 : mapO rankACGT b with _ | u2 <;>
          simp [bitBuild, h1, h2]
    rw [hsh, mapO_isSome, mapO_isSome]
    exact and_congr
      (forall_congr' fun c => imp_congr_right fun _ => bitsOfA_isSome_iff c)
      (forall_congr' fun c => imp_congr_right fun _ => rankACGT_isSome_iff c)
  · intro pa pb h i j hi hj
    obtain ⟨hm, hchar⟩ := scatterIsMatch_char a b pa pb h i j hi hj
    have haMem : a.getD i 0 ∈ scatterABytes := by
      rw [← getCharS_isSome_iff]
      rw [hchar]
      rfl
    have hrk : (getCharS (a.getD i 0)).getD 0 = pa.getD i 0 := by
      rw [hchar]
      rfl
    obtain ⟨ht1, ht2, ht3⟩ := maskBit_compat_nyr (a.getD i 0) haMem
    refine ⟨?_, ?_, ?_⟩
    · intro hbc
      rw [hm, ← hrk]
      exact ht1 _ hbc
    · intro hbc
      rw [hm, ← hrk]
      exact ht2 _ hbc
    · intro hbc
      rw [hm, ← hrk]
      exact ht3 _ hbc

theorem c5_profile_input_validation_witness :
    ((scatterBuild [97] [89]).isSome = true ↔
      ((∀ c ∈ ([97] : List Nat), c ∈ scatterABytes) ∧
        (∀ c ∈ ([89] : List Nat), c ∈ scatterBBytes))) ∧
    ((bitBuild [97] [89]).isSome = true ↔
      ((∀ c ∈ ([97] : List Nat), c ∈ acgtBytes) ∧
        (∀ c ∈ ([89] : List Nat), c ∈ acgtBytes))) ∧
    (∀ pa pb, scatterBuild [97] [89] = some (pa, pb) →
      ∀ i j, i < ([97] : List Nat).length → j < ([89] : List Nat).length →
        ((([89] : List Nat).getD j 0 ∈ ([110, 78, 42] : List Nat) →
            scatterIsMatch pa pb i j = true) ∧
          (([89] : List Nat).getD j 0 ∈ ([121, 89] : List Nat) →
            scatterIsMatch pa pb i j =
              decide (([97] : List Nat).getD i 0 ∈ ([99, 67, 116, 84] : List Nat))) ∧
          (([89] : List Nat).getD j 0 ∈ ([114, 82] : List Nat) →
            scatterIsMatch pa pb i j =
              decide (([97] : List Nat).getD i 0 ∈ ([97, 65, 103, 71] : List Nat))))) :=
  c5_profile_input_validation [97] [89]

/-- C6 counterexample: `A = "a"` (lowercase, byte 97) and `B = "A"` (byte
65) are accepted by `ScatterProfile::build`, and `is_match(0, 0)` is `true`
although `A[0] ≠ B[0]` as bytes: the round trip `is_match(i,j) ⇔ A[i] = B[j]`
fails. -/
theorem c6_counterexample :
    scatterBuild [97] [65] =
      some ([0], [(M64 - 1, M64 - 2, M64 - 2, M64 - 2)]) ∧
    scatterIsMatch [0] [(M64 - 1, M64 - 2, M64 - 2, M64 - 2)] 0 0 = true ∧
    ¬(([97] : List Nat).getD 0 0 = ([65] : List Nat).getD 0 0) := by
  refine ⟨by decide, by decide, by decide⟩

/-- The compatibility relation actually decided by the scatter profile:
the `a`-byte must be a base (upper or lower case), and the `b`-byte either
names the same base (case-insensitively), or is an ambiguity code whose
subset contains it. -/
def compatSB (ca cb : Nat) : Bool :=
  decide (ca ∈ scatterABytes) &&
    (decide (cb ∈ ([110, 78, 42] : List Nat)) ||
      (decide (cb ∈ ([121, 89] : List Nat)) &&
        decide (ca ∈ ([99, 67, 116, 84] : List Nat))) ||
      (decide (cb ∈ ([114, 82] : List Nat)) &&
        decide (ca ∈ ([97, 65, 103, 71] : List Nat))) ||
      decide (getCharS ca = getCharS cb))

theorem maskBit_compat_table :
    ∀ ca ∈ scatterABytes, ∀ cb ∈ scatterBBytes,
      maskBit cb ((getCharS ca).getD 0) = compatSB ca cb := by
  decide

theorem rank_inj_table :
    ∀ ca ∈ acgtBytes, ∀ cb ∈ acgtBytes,
      (decide ((rankACGT ca).getD 0 = (rankACGT cb).getD 0)) = decide (ca = cb) := by
  decide

/-- C6 amended: after a successful build, `is_match(i, j)` holds iff the two
characters are compatible.  For `BitProfile` (which only accepts uppercase
`ACGT`) this is exactly byte equality `A[i] = B[j]`; for `ScatterProfile`
it is the case-insensitive base equality extended by the ambiguity subsets
(`N` ↔ any base, `Y` ↔ `C`/`T`, `R` ↔ `A`/`G`), so byte equality holds only
up to case and ambiguity codes. -/
theorem c6_is_match_characterization (a b : List Nat) :
    (∀ pa pb, scatterBuild a b = some (pa, pb) →
      ∀ i j, i < a.length → j < b.length →
        scatterIsMatch pa pb i j = compatSB (a.getD i 0) (b.getD j 0)) ∧
    (∀ qa qb, bitBuild a b = some (qa, qb) →
      ∀ i j, i < a.length → j < b.length →
        (bitIsMatch qa qb i j = true ↔ a.getD i 0 = b.getD j 0)) := by
  constructor
  · intro pa pb h i j hi hj
    obtain ⟨hm, hchar⟩ := scatterIsMatch_char a b pa pb h i j hi hj
    have haMem : a.getD i 0 ∈ scatterABytes := by
      rw [← getCharS_isSome_iff, hchar]
      rfl
    have hbMem : b.getD j 0 ∈ scatterBBytes := by
      rw [← getMaskS_isSome_iff]
      have hbv := scatterBuild_b_ok a b pa pb h
      exact (mapO_isSome getMaskS b).mp hbv _ (getD_mem b j 0 hj)
    have hrk : (getCharS (a.getD i 0)).getD 0 = pa.getD i 0 := by
      rw [hchar]
      rfl
    rw [hm, ← hrk]
    exact maskBit_compat_table _ haMem _ hbMem
  · intro qa qb h i j hi hj
    obtain ⟨ra, rb, hra, hrb, hm⟩ := bitIsMatch_char a b qa qb h i j hi hj
    have haMem : a.getD i 0 ∈ acgtBytes := by
      rw [← rankACGT_isSome_iff, hra]
      rfl
    have hbMem : b.getD j 0 ∈ acgtBytes := by
      rw [← rankACGT_isSome_iff, hrb]
      rfl
    have h1 : ra = (rankACGT (a.getD i 0)).getD 0 := by rw [hra]; rfl
    have h2 : rb = (rankACGT (b.getD j 0)).getD 0 := by rw [hrb]; rfl
    rw [hm, h1, h2, rank_inj_table _ haMem _ hbMem]
    simp

theorem c6_is_match_characterization_witness :
    (∀ pa pb, scatterBuild [65] [84] = some (pa, pb) →
      ∀ i j, i < ([65] : List Nat).length → j < ([84] : List Nat).length →
        scatterIsMatch pa pb i j =
          compatSB (([65] : List Nat).getD i 0) (([84] : List Nat).getD j 0)) ∧
    (∀ qa qb, bitBuild [65] [84] = some (qa, qb) →
      ∀ i j, i < ([65] : List Nat).length → j < ([84] : List Nat).length →
        (bitIsMatch qa qb i j = true ↔
          ([65] : List Nat).getD i 0 = ([84] : List Nat).getD j 0)) :=
  c6_is_match_characterization [65] [84]

/-- Modelled from the spec: the quadratic Needleman-Wunsch reference used by
the tests (its `nw` module is not under `src/`), computing the unit-cost
Levenshtein distance (match 0, mismatch/insert/delete 1). -/
def nw : List Nat → List Nat → Nat
  | [], b => b.length
  | a, [] => a.length
  | x :: xs, y :: ys =>
      min (min (nw xs ys + (if x = y then 0 else 1)) (nw xs (y :: ys) + 1))
        (nw (x :: xs) ys + 1)
termination_by a b => a.length + b.length
decreasing_by all_goals simp <;> omega

/-- Modelled from the spec: `CostModel::gap_cost(Pos(0,0), target)` for the
unit-cost model, the absolute length difference of the two sequences. -/
def gapCost (a b : List Nat) : Nat :=
  max a.length b.length - min a.length b.length

/-- The loop of `cost_exponential_search` from `src/src/aligners.rs`: try the
bounded solver at bound `s`, accept a returned cost `c ≤ s`, otherwise retry
with `s = max(2*s, 1)`.  The fuel parameter makes the Rust `loop` (which the
source itself flags as potentially infinite) a total function: running out
of fuel returns `none`. -/
def expSearch (oracle : Nat → Option Nat) : Nat → Nat → Option Nat
  | 0, _ => none
  | fuel + 1, s =>
      match oracle s with
      | some c => if c ≤ s then some c else expSearch oracle fuel (max (2 * s) 1)
      | none => expSearch oracle fuel (max (2 * s) 1)

/-- `cost_exponential_search`: start the exponential search from the
gap-cost lower bound. -/
def cost_exponential_search (oracle : Nat → Option Nat) (a b : List Nat)
    (fuel : Nat) : Option Nat :=
  expSearch oracle fuel (gapCost a b)

/-- The contract-conform bounded solver: returns the exact distance whenever
it is within the bound, `none` otherwise. -/
def exactOracle (a b : List Nat) (s : Nat) : Option Nat :=
  if nw a b ≤ s then some (nw a b) else none

theorem expSearch_ok (oracle : Nat → Option Nat) (d : Nat)
    (hc : ∀ s, d ≤ s → oracle s = some d)
    (hs : ∀ s c, oracle s = some c → c ≤ s → c = d) :
    ∀ fuel s, 1 ≤ fuel → 1 ≤ s → d ≤ s + (fuel - 1) →
      expSearch oracle fuel s = some d := by
  intro fuel
  induction fuel with
  | zero => intro s h1 _ _; omega
  | succ f ih =>
    intro s _ hs1 hd
    by_cases hds : d ≤ s
    · rw [expSearch, hc s hds]
      show (if d ≤ s then some d else expSearch oracle f (max (2 * s) 1)) = some d
      rw [if_pos hds]
    · have hstep : ∀ r, oracle s = r →
          (match r with
            | some c => if c ≤ s then some c else expSearch oracle f (max (2 * s) 1)
            | none => expSearch oracle f (max (2 * s) 1)) = some d := by
        intro r hr
        have hrec : expSearch oracle f (max (2 * s) 1) = some d := by
          apply ih
          · omega
          · omega
          · omega
        cases r with
        | none => exact hrec
        | some c =>
          show (if c ≤ s then some c else expSearch oracle f (max (2 * s) 1)) =
            some d
          by_cases hcs : c ≤ s
          · exact absurd (hs s c hr hcs ▸ hcs) hds
          · rw [if_neg hcs]
            exact hrec
      rw [expSearch]
      exact hstep (oracle s) rfl

/-- C1: for every pair of sequences, the outer driver (exponential search on
the cost bound, starting from the gap-cost lower bound and updating
`s = max(2*s, 1)`) terminates — with any fuel of at least `nw a b + 2` the
loop accepts — and returns exactly the unit-cost Levenshtein distance of the
quadratic Needleman-Wunsch reference, for every bounded solver satisfying
its contract (exact when the bound suffices, and any accepted cost `c ≤ s`
is exact). -/
theorem c1_exponential_search_returns_nw
    (a b : List Nat) (oracle : Nat → Option Nat)
    (hcomplete : ∀ s, nw a b ≤ s → oracle s = some (nw a b))
    (hsound : ∀ s c, oracle s = some c → c ≤ s → c = nw a b)
    (fuel : Nat) (hfuel : nw a b + 2 ≤ fuel) :
    cost_exponential_search oracle a b fuel = some (nw a b) := by
  rw [cost_exponential_search]
  rcases Nat.eq_zero_or_pos (gapCost a b) with h0 | h0
  · rw [h0]
    obtain ⟨f, rfl⟩ : ∃ f, fuel = f + 1 := ⟨fuel - 1, by omega⟩
    by_cases hd0 : nw a b ≤ 0
    · rw [expSearch, hcomplete 0 hd0]
      show (if nw a b ≤ 0 then some (nw a b)
        else expSearch oracle f (max (2 * 0) 1)) = some (nw a b)
      rw [if_pos hd0]
    · rw [expSearch]
      have hstep : ∀ r, oracle 0 = r →
          (match r with
            | some c => if c ≤ 0 then some c else expSearch oracle f (max (2 * 0) 1)
            | none => expSearch oracle f (max (2 * 0) 1)) = some (nw a b) := by
        intro r hr
        have hrec : expSearch oracle f (max (2 * 0) 1) = some (nw a b) := by
          apply expSearch_ok oracle (nw a b) hcomplete hsound
          · omega
          · omega
          · omega
        cases r with
        | none => exact hrec
        | some c =>
          show (if c ≤ 0 then some c else expSearch oracle f (max (2 * 0) 1)) =
            some (nw a b)
          by_cases hcs : c ≤ 0
          · exact absurd (hsound 0 c hr hcs ▸ hcs) hd0
          · rw [if_neg hcs]
            exact hrec
      exact hstep (oracle 0) rfl
  · apply expSearch_ok oracle (nw a b) hcomplete hsound
    · omega
    · omega
    · -- the gap cost is a lower bound only improves matters; fuel covers d anyway
      omega

theorem c1_exponential_search_returns_nw_witness :
    (∀ s, nw [0, 1] [0] ≤ s → exactOracle [0, 1] [0] s = some (nw [0, 1] [0])) ∧
    (∀ s c, exactOracle [0, 1] [0] s = some c → c ≤ s → c = nw [0, 1] [0]) ∧
    nw [0, 1] [0] + 2 ≤ 3 ∧
    cost_exponential_search (exactOracle [0, 1] [0]) [0, 1] [0] 3 =
      some (nw [0, 1] [0]) := by
  have p1 : ∀ s, nw [0, 1] [0] ≤ s →
      exactOracle [0, 1] [0] s = some (nw [0, 1] [0]) := by
    intro s hs
    rw [exactOracle, if_pos hs]
  have p2 : ∀ s c, exactOracle [0, 1] [0] s = some c → c ≤ s →
      c = nw [0, 1] [0] := by
    intro s c h _
    rw [exactOracle] at h
    split at h
    · exact (Option.some.inj h).symm
    · cases h
  have hnw : nw [0, 1] [0] = 1 := by simp [nw]
  exact ⟨p1, p2, by rw [hnw],
    c1_exponential_search_returns_nw [0, 1] [0] _ p1 p2 3 (by rw [hnw])⟩

/-- An inclusive row range `JRange(start, end)` of `pa-types` (empty when
`start > end`, as witnessed by the non-emptiness assert in `domain.rs`). -/
structure JR where
  lo : Int
  hi : Int
deriving Repr, DecidableEq

/-- Modelled from the spec: `JRange::union`, the smallest range containing
both (the store only ever grows ranges). -/
def JR.union (r s : JR) : JR := ⟨min r.lo s.lo, max r.hi s.hi⟩

/-- Modelled from the spec: `JRange::intersection` (the final crop to
`[0, |B|]`). -/
def JR.inter (r s : JR) : JR := ⟨max r.lo s.lo, min r.hi s.hi⟩

/-- `JRange::is_empty` for inclusive ranges. -/
def JR.isEmpty (r : JR) : Bool := r.hi < r.lo

/-- Membership of a row in an inclusive range. -/
def JR.mem (r : JR) (j : Int) : Bool := r.lo ≤ j ∧ j ≤ r.hi

/-- A very large value standing for the `+∞` of rows outside a block's
materialised range. -/
def INF : Int := 1000000000

/-- Modelled from the spec: one stored block of the block store
(`astarpa2`'s `block.rs` is absent from `src/`): the final column index, the
unrounded `j_range`, the fixed subrange, and the column values over the rows
of `j_range`. -/
structure BlockM where
  iEnd : Int
  jr : JR
  fixedR : Option JR
  vals : List Int
deriving Repr, DecidableEq

instance : Inhabited BlockM := ⟨⟨0, ⟨0, 0⟩, none, []⟩⟩

/-- `Block::index`: the value at row `j` of the block's column (callers only
use rows inside the fixed range, which lies inside `j_range`). -/
def BlockM.index (bl : BlockM) (j : Int) : Int :=
  bl.vals.getD (j - bl.jr.lo).toNat 0

/-- `Block::get`: the value at row `j`, or `None` when the row is outside the
stored (unrounded) `j_range`; spec: callers see the unrounded range. -/
def BlockM.get (bl : BlockM) (j : Int) : Option Int :=
  if bl.jr.lo ≤ j ∧ j ≤ bl.jr.hi then some (bl.index j) else none

/-- The panic sites of the range controller and driver, reached through
`expect`, `assert!` and `unwrap` in `domain.rs`. -/
inductive PK where
  | expectFixedNone
  | fixedEmptyAssert
  | fAboveDiag
  | nextRangeAssert
  | pruneUnwrap
  | negFmax
deriving Repr, DecidableEq

/-- The four domains of `astarpa2` (`Domain::{Full, GapStart, GapGap, Astar}`);
the A* heuristic instance itself is passed separately as a pure function. -/
inductive DomainE where
  | full
  | gapStart
  | gapGap
  | astar
deriving Repr, DecidableEq

/-- `Cost::div_ceil` as used by the controller.  Every call site has a
positive numerator and denominator, where Euclidean division agrees with the
Rust rounding-up division. -/
def divCeilI (a b : Int) : Int := (a + b - 1) / b

/-- Modelled from the spec: `AffineCost::unit().extend_cost(u, v)`, written
exactly as stated in the range-controller section:
`(v.i - u.i) + (v.j - u.j - (v.i - u.i))` under unit cost. -/
def extendCost (u v : Int × Int) : Int :=
  (v.1 - u.1) + (v.2 - u.2 - (v.1 - u.1))

/-- Modelled from the spec: the unit gap cost between two positions, the
absolute difference of the two coordinate deltas. -/
def gapCostI (p q : Int × Int) : Int := |(q.2 - p.2) - (q.1 - p.1)|

/-- The pointwise lower bound `f(v) = g(u) + extend(u, v) + h(v)` of the A*
`j_range` branch, with the assert that `v` lies on or below the diagonal of
`u` modelled as a panic. -/
def fLB (gu : Int) (u : Int × Int) (h : Int × Int → Int) (v : Int × Int) :
    Except PK Int :=
  if v.2 - u.2 ≥ v.1 - u.1 then .ok (gu + extendCost u v + h v)
  else .error .fAboveDiag

/-- The inner descent of the non-sparse A* `j_range` loop: starting at row
`vj` of column `vi`, go down while the cell is in reach, then step back up
one row (`while v.1 <= b.len() && f(v) <= f_max { v.1 += 1 } v.1 -= 1`). -/
def descendLoop (fc : Int → Except PK Int) (blen fmax : Int) (vj : Int) :
    Except PK Int :=
  if vj ≤ blen then
    match fc vj with
    | .error e => .error e
    | .ok fv =>
      if fv ≤ fmax then descendLoop fc blen fmax (vj + 1) else .ok (vj - 1)
  else .ok (vj - 1)
termination_by (blen + 1 - vj).toNat
decreasing_by omega

/-- The outer non-sparse A* loop: extend diagonally one column at a time,
descending in each column. -/
def nonSparseLoop (h : Int × Int → Int) (gu : Int) (u : Int × Int)
    (blen fmax ie : Int) (v : Int × Int) : Except PK (Int × Int) :=
  if v.1 < ie then
    match descendLoop (fun j => fLB gu u h (v.1 + 1, j)) blen fmax (v.2 + 2) with
    | .error e => .error e
    | .ok j2 => nonSparseLoop h gu u blen fmax ie (v.1 + 1, j2)
  else .ok v
termination_by (ie - v.1).toNat
decreasing_by omega

/-- The first sparse A* loop: go right in exponential-by-`f`-excess steps and
down in steps of 8 while inside the grid. -/
def sparseLoop1 (h : Int × Int → Int) (gu : Int) (u : Int × Int)
    (blen fmax ie : Int) (v : Int × Int) : Except PK (Int × Int) :=
  if v.1 ≤ ie ∧ v.2 < blen then
    match fLB gu u h v with
    | .error e => .error e
    | .ok fv =>
      if fv ≤ fmax then sparseLoop1 h gu u blen fmax ie (v.1, v.2 + 8)
      else sparseLoop1 h gu u blen fmax ie (v.1 + divCeilI (fv - fmax) 2, v.2)
  else .ok v
termination_by ((ie + 1 - v.1).toNat, (blen - v.2).toNat)
decreasing_by
  · exact Prod.Lex.right _ (by omega)
  · have h1 : 1 ≤ divCeilI (fv - fmax) 2 := by
      have h2 : ¬fv ≤ fmax := by assumption
      show 1 ≤ (fv - fmax + 2 - 1) / 2
      omega
    exact Prod.Lex.left _ _ (by omega)

/-- The second sparse A* loop: in the final column, go back up in
`ceil((f - f_max)/2)` steps until in scope, clamped at the diagonal of `u`. -/
def sparseLoop2 (h : Int × Int → Int) (gu : Int) (u : Int × Int)
    (blen fmax diag ie : Int) (vj : Int) : Except PK Int :=
  if vj < 0 ∨ vj = blen then .ok vj
  else
    match fLB gu u h (ie, vj) with
    | .error e => .error e
    | .ok fv =>
      if fv ≤ fmax then .ok vj
      else
        let vj2 := vj - divCeilI (fv - fmax) 2
        if vj2 < diag then .ok diag
        else sparseLoop2 h gu u blen fmax diag ie vj2
termination_by (vj + 1).toNat
decreasing_by
  have h1 : 1 ≤ divCeilI (fv - fmax) 2 := by
    have h2 : ¬fv ≤ fmax := by assumption
    show 1 ≤ (fv - fmax + 2 - 1) / 2
    omega
  omega

/-- The A* branch of `j_range` (before the final union with `old_range` and
the crop): read and widen the previous fixed range, then walk the lowest
reachable row to the last column of the new block. -/
def jRangeAstar (blen : Int) (h : Int × Int → Int) (sparse : Bool) (bw : Int)
    (is ie : Int) (f : Int) (prev : BlockM) (old : Option JR) :
    Except PK JR := do
  let fr ← match prev.fixedR with
    | none => throw PK.expectFixedNone
    | some r => pure r
  if fr.hi < fr.lo then throw PK.fixedEmptyAssert
  let fs := match old with | some o => min fr.lo o.lo | none => fr.lo
  let fe := match old with | some o => max fr.hi o.hi | none => fr.hi
  let u : Int × Int := (is, fe)
  let gu := if is < 0 then 0 else prev.index fe
  if sparse then
    let v0 : Int × Int := (is + 1, min (fe + 1 + bw + 8) blen)
    let v1 ← sparseLoop1 h gu u blen f ie v0
    let vj ← sparseLoop2 h gu u blen f (ie - u.1 + u.2) ie v1.2
    pure ⟨fs, vj⟩
  else
    let v ← nonSparseLoop h gu u blen f ie u
    pure ⟨fs, v.2⟩

/-- `AstarPa2Instance::j_range` from `astarpa2/src/domain.rs`: the range of
rows to compute for the new block, never shrinking below `old_range` and
cropped to `[0, |B|]`. -/
def jRangeE (alen blen : Int) (dom : DomainE) (h : Int × Int → Int)
    (sparse : Bool) (bw : Int) (iR : Int × Int) (fmax : Option Int)
    (prev : BlockM) (old : Option JR) : Except PK JR :=
  match fmax with
  | none => .ok ⟨0, blen⟩
  | some f =>
    let is := iR.1
    let ie := iR.2
    let base : Except PK JR :=
      match dom with
      | .full => .ok ⟨0, blen⟩
      | .gapStart => .ok ⟨is + 1 + -f, ie + f⟩
      | .gapGap =>
        let d := blen - alen
        let s := f - gapCostI (0, 0) (alen, blen)
        let extra := s / 2
        .ok ⟨is + 1 + min d 0 - extra, ie + max d 0 + extra⟩
      | .astar => jRangeAstar blen h sparse bw is ie f prev old
    match base with
    | .error e => .error e
    | .ok r =>
      let r2 := match old with | some o => r.union o | none => r
      .ok (r2.inter ⟨0, blen⟩)

/-- The forward scan of `fixed_j_range`: increase `start` until
`f(start) ≤ f_max`; the step is `ceil((f - f_max)/2)` with `sparse_h`
(taken only when `f > f_max`) and `1` otherwise. -/
def fixedStartLoop (f : Int → Int) (fmax : Int) (sparse : Bool) (hi : Int)
    (start : Int) : Int :=
  if start ≤ hi then
    if f start ≤ fmax then start
    else
      fixedStartLoop f fmax sparse hi
        (start + (if sparse then divCeilI (f start - fmax) 2 else 1))
  else start
termination_by (hi + 1 - start).toNat
decreasing_by
  have h2 : ¬f start ≤ fmax := by assumption
  have h3 : 1 ≤ divCeilI (f start - fmax) 2 := by
    show 1 ≤ (f start - fmax + 2 - 1) / 2
    omega
  cases sparse <;> simp <;> omega

/-- The backward scan of `fixed_j_range`: decrease `end` until
`f(end) ≤ f_max`. -/
def fixedEndLoop (f : Int → Int) (fmax : Int) (sparse : Bool) (lo : Int)
    (e : Int) : Int :=
  if lo ≤ e then
    if f e ≤ fmax then e
    else
      fixedEndLoop f fmax sparse lo
        (e - (if sparse then divCeilI (f e - fmax) 2 else 1))
  else e
termination_by (e + 1 - lo).toNat
decreasing_by
  have h2 : ¬f e ≤ fmax := by assumption
  have h3 : 1 ≤ divCeilI (f e - fmax) 2 := by
    show 1 ≤ (f e - fmax + 2 - 1) / 2
    omega
  cases sparse <;> simp <;> omega

/-- `AstarPa2Instance::fixed_j_range`: scan from both ends of the block's
`j_range` while `f(u) = g(u) + h(u) > f_max`; `None` for non-A* domains or
an absent bound. -/
def fixedJRangeE (dom : DomainE) (h : Int × Int → Int) (sparse : Bool)
    (i : Int) (fmax : Option Int) (block : BlockM) : Option JR :=
  match dom, fmax with
  | .astar, some f =>
    let fj : Int → Int := fun j => block.index j + h (i, j)
    let s := fixedStartLoop fj f sparse block.jr.hi block.jr.lo
    let e := fixedEndLoop fj f sparse s block.jr.hi
    some ⟨s, e⟩
  | _, _ => none

/-- Row values `jlo..jhi` read off a column function. -/
def listOfFn (f : Int → Int) (jlo jhi : Int) : List Int :=
  (List.range ((jhi + 1 - jlo).toNat)).map (fun k => f (jlo + (k : Int)))

/-- A column function from a stored list of rows: `INF` outside the range
(spec: off-range values are effectively `+∞`). -/
def fnOf (jlo : Int) (vals : List Int) (j : Int) : Int :=
  if jlo ≤ j ∧ j < jlo + vals.length then vals.getD (j - jlo).toNat 0 else INF

/-- Substitution cost of entering row `j` of a column whose `a`-character is
`ch`: compare with `b[j-1]`; rows without a diagonal predecessor get `INF`
(the neighbouring `+∞` makes the term irrelevant). -/
def subAt (ch : Nat) (b : List Nat) (j : Int) : Int :=
  if 1 ≤ j ∧ j ≤ (b.length : Int) then
    (if b.getD (j - 1).toNat 0 = ch then 0 else 1)
  else INF

/-- One banded DP column, rows `j, j+1, ...` (`n` of them): each value is
`min(D[i-1][j-1] + sub, D[i-1][j] + 1, D[i][j-1] + 1)` with `up` the value
computed for the row above (`INF` at the top of the band). -/
def colStepGo (subf prevF : Int → Int) : Nat → Int → Int → List Int
  | 0, _, _ => []
  | n + 1, j, up =>
    let cur := min (min (prevF (j - 1) + subf j) (prevF j + 1)) (up + 1)
    cur :: colStepGo subf prevF n (j + 1) cur

/-- Modelled from the spec: the kernel fills a block over the requested row
range, computing the banded column DP with `+∞` outside the band
(`blocks.rs` and the bit-packed production kernel are absent from `src/`;
claims about the kernel's bit-level equivalence are settled separately). -/
def colStep (subf prevF : Int → Int) (jlo jhi : Int) : List Int :=
  colStepGo subf prevF ((jhi + 1 - jlo).toNat) jlo INF

/-- Advance the banded DP over a list of `a`-characters (one column each),
returning the last column's rows. -/
def computeColsList (b : List Nat) (jlo jhi : Int) :
    List Nat → (Int → Int) → List Int
  | [], prevF => listOfFn prevF jlo jhi
  | ch :: rest, prevF =>
    computeColsList b jlo jhi rest (fnOf jlo (colStep (subAt ch b) prevF jlo jhi))

/-- The `a`-characters consumed by the block covering columns
`(i_range.0, i_range.1]`. -/
def charsOf (a : List Nat) (iR : Int × Int) : List Nat :=
  (List.range (iR.2 - iR.1).toNat).map (fun k => a.getD (iR.1 + (k : Int)).toNat 0)

/-- Modelled from the spec: the block store (`blocks.rs` absent from
`src/`): an array of blocks indexed by column block, a cursor to the last
computed block; stored blocks beyond the cursor are retained across doubling
iterations so that `next_block_j_range` can enforce monotone growth. -/
structure BlocksM where
  stored : List BlockM
  cur : Nat
deriving Repr, DecidableEq

/-- `Blocks::last_block`. -/
def BlocksM.lastB (bs : BlocksM) : BlockM := bs.stored.getD bs.cur default

/-- `Blocks::next_block_j_range`: the retained `j_range` of the block after
the cursor, if any. -/
def BlocksM.nextJR (bs : BlocksM) : Option JR :=
  (bs.stored.get? (bs.cur + 1)).map (fun bl => bl.jr)

/-- Overwrite index `n` (or append when `n` is the length). -/
def setAt (l : List BlockM) (n : Nat) (blk : BlockM) : List BlockM :=
  if n < l.length then l.set n blk else l ++ [blk]

/-- `Blocks::init`: rewind the cursor and store the column-0 block with
`D[j] = j` over the initial range. -/
def BlocksM.init (bs : BlocksM) (jr : JR) : BlocksM :=
  ⟨setAt bs.stored 0 ⟨0, jr, none, listOfFn (fun j => j) jr.lo jr.hi⟩, 0⟩

/-- `Blocks::compute_next_block`: fill the next block over the given range
from the last block. -/
def BlocksM.computeNext (bs : BlocksM) (a b : List Nat) (iR : Int × Int)
    (jr : JR) : BlocksM :=
  let prev := bs.lastB
  let vals := computeColsList b jr.lo jr.hi (charsOf a iR)
    (fnOf prev.jr.lo prev.vals)
  ⟨setAt bs.stored (bs.cur + 1) ⟨iR.2, jr, none, vals⟩, bs.cur + 1⟩

/-- `Blocks::reuse_next_block`: promote the cached block unchanged. -/
def BlocksM.reuseNext (bs : BlocksM) : BlocksM := ⟨bs.stored, bs.cur + 1⟩

/-- `Blocks::set_last_block_fixed_j_range`. -/
def BlocksM.setLastFixed (bs : BlocksM) (r : Option JR) : BlocksM :=
  ⟨bs.stored.modify (fun bl => { bl with fixedR := r }) bs.cur, bs.cur⟩

/-- The `i_range`s visited by the driver loop
(`for i in (0..a.len()).step_by(block_width)`), assuming `block_width > 0`
(Rust panics on `step_by(0)`). -/
def iRangesOf (alen bw : Nat) : List (Int × Int) :=
  (List.range ((alen + bw - 1) / bw)).map
    (fun k => ((k * bw : Nat), (min ((k + 1) * bw) alen : Nat)))

/-- Result of one `align_for_bounded_dist` call: the outcome (a panic, or
the returned `Option<Cost>`), the final block store, and, for the analysis
of the controller's preconditions, the list of blocks that were passed as
`prev` to `j_range` during the loop. -/
structure AlignOut where
  res : Except PK (Option Int)
  blocks : BlocksM
  prevs : List BlockM

/-- The driver loop of `align_for_bounded_dist` over the remaining column
blocks. -/
def alignLoop (a b : List Nat) (dom : DomainE) (h : Int × Int → Int)
    (sparse : Bool) (bw : Nat) (prune : Bool) (fmax : Option Int) :
    List (Int × Int) → BlocksM → Bool → AlignOut
  | [], bs, _ =>
    match bs.lastB.get (b.length : Int) with
    | none => ⟨.ok none, bs, []⟩
    | some dist => ⟨.ok (some dist), bs, []⟩
  | ir :: rest, bs, allReused =>
    let prev := bs.lastB
    match jRangeE (a.length : Int) (b.length : Int) dom h sparse (bw : Int) ir
        fmax prev bs.nextJR with
    | .error e => ⟨.error e, bs, [prev]⟩
    | .ok jr =>
      if jr.isEmpty then
        if bs.nextJR ≠ none then ⟨.error .nextRangeAssert, bs, [prev]⟩
        else ⟨.ok none, bs, [prev]⟩
      else
        let reuse := bs.nextJR = some jr ∧ allReused = true
        let bs2 := if reuse then bs.reuseNext else bs.computeNext a b ir jr
        let prevFixed := prev.fixedR
        let nfr := fixedJRangeE dom h sparse ir.2 fmax bs2.lastB
        if (match nfr with | some r => r.isEmpty | none => false) then
          ⟨.ok none, bs2, [prev]⟩
        else
          let bs3 := bs2.setLastFixed nfr
          if prune ∧ dom = .astar ∧ prevFixed = none then
            ⟨.error .pruneUnwrap, bs3, [prev]⟩
          else
            let out := alignLoop a b dom h sparse bw prune fmax rest bs3
              (allReused && decide reuse)
            ⟨out.res, out.blocks, prev :: out.prevs⟩

/-- `AstarPa2Instance::align_for_bounded_dist` from `astarpa2/src/domain.rs`:
set up the initial block for column 0, loop over the column blocks
(computing `j_range`, reusing or computing the block, recomputing
`fixed_j_range`, pruning), and read the result at `(|A|, |B|)`.  Tracing
(the CIGAR) is omitted: it does not affect the returned cost.  The pending
prune flush only affects the heuristic of later calls and is invisible to
the pure per-call heuristic `h`. -/
def alignBD (a b : List Nat) (dom : DomainE) (h : Int × Int → Int)
    (sparse : Bool) (bw : Nat) (prune : Bool) (fmax : Option Int)
    (bs0 : BlocksM) : AlignOut :=
  if (match fmax with | some f => decide (f < 0) | none => false) = true then
    ⟨.error .negFmax, bs0, []⟩
  else
  let synthPrev : BlockM := ⟨0, ⟨0, 0⟩, some ⟨-1, -1⟩, []⟩
  let initialOld : Option JR := (bs0.stored.get? 0).map (fun bl => bl.jr)
  match jRangeE (a.length : Int) (b.length : Int) dom h sparse (bw : Int)
      (-1, 0) fmax synthPrev initialOld with
  | .error e => ⟨.error e, bs0, []⟩
  | .ok ijr =>
    if ijr.isEmpty ∨ 0 < ijr.lo then ⟨.ok none, bs0, []⟩
    else
      let bs1 := (bs0.init ijr).setLastFixed (some ijr)
      alignLoop a b dom h sparse bw prune fmax (iRangesOf a.length bw) bs1 true

/-- Endpointwise containment of inclusive ranges: `r` is a subrange of `s`. -/
def jrSub (r s : JR) : Prop := s.lo ≤ r.lo ∧ r.hi ≤ s.hi

/-- Every stored block's `j_range` lies inside `[0, blen]` (the invariant the
final crop of `j_range` maintains). -/
def storedOK (blen : Int) (l : List BlockM) : Prop :=
  ∀ k, k < l.length →
    0 ≤ (l.getD k default).jr.lo ∧ (l.getD k default).jr.hi ≤ blen

/-- The block store only grows: no stored block is dropped and each stored
`j_range` only widens. -/
def listGrow (l0 l1 : List BlockM) : Prop :=
  l0.length ≤ l1.length ∧
  ∀ k, k < l0.length → jrSub ((l0.getD k default).jr) ((l1.getD k default).jr)

/-- The four reasons `align_for_bounded_dist` returns `None`: `0` outside the
initial `j_range` of column 0; an empty `j_range` for some block; an empty
recomputed `fixed_j_range`; and `|B|` outside the last block's `j_range` so
that the final `get` fails. -/
inductive NoneWhy where
  | initOut
  | emptyJ
  | emptyFixed
  | finalGet
deriving Repr, DecidableEq

/-- Replay of the driver loop that records why it returns `None`:
`some w` when `alignLoop` returns `.ok none` for reason `w`, and `none` when
it returns a cost or panics. -/
def loopWhy (a b : List Nat) (dom : DomainE) (h : Int × Int → Int)
    (sparse : Bool) (bw : Nat) (prune : Bool) (fmax : Option Int) :
    List (Int × Int) → BlocksM → Bool → Option NoneWhy
  | [], bs, _ =>
    match bs.lastB.get (b.length : Int) with
    | none => some .finalGet
    | some _ => none
  | ir :: rest, bs, allReused =>
    let prev := bs.lastB
    match jRangeE (a.length : Int) (b.length : Int) dom h sparse (bw : Int) ir
        fmax prev bs.nextJR with
    | .error _ => none
    | .ok jr =>
      if jr.isEmpty then
        if bs.nextJR ≠ none then none else some .emptyJ
      else
        let reuse := bs.nextJR = some jr ∧ allReused = true
        let bs2 := if reuse then bs.reuseNext else bs.computeNext a b ir jr
        let prevFixed := prev.fixedR
        let nfr := fixedJRangeE dom h sparse ir.2 fmax bs2.lastB
        if (match nfr with | some r => r.isEmpty | none => false) then
          some .emptyFixed
        else
          let bs3 := bs2.setLastFixed nfr
          if prune ∧ dom = .astar ∧ prevFixed = none then none
          else loopWhy a b dom h sparse bw prune fmax rest bs3
            (allReused && decide reuse)

/-- Replay of `align_for_bounded_dist` recording why it returns `None`:
`some w` exactly when `alignBD` returns `.ok none`, with `w` naming which of
the four exits fired. -/
def alignWhy (a b : List Nat) (dom : DomainE) (h : Int × Int → Int)
    (sparse : Bool) (bw : Nat) (prune : Bool) (fmax : Option Int)
    (bs0 : BlocksM) : Option NoneWhy :=
  if (match fmax with | some f => decide (f < 0) | none => false) = true then
    none
  else
  let synthPrev : BlockM := ⟨0, ⟨0, 0⟩, some ⟨-1, -1⟩, []⟩
  let initialOld : Option JR := (bs0.stored.get? 0).map (fun bl => bl.jr)
  match jRangeE (a.length : Int) (b.length : Int) dom h sparse (bw : Int)
      (-1, 0) fmax synthPrev initialOld with
  | .error _ => none
  | .ok ijr =>
    if ijr.isEmpty ∨ 0 < ijr.lo then some .initOut
    else loopWhy a b dom h sparse bw prune fmax (iRangesOf a.length bw)
      ((bs0.init ijr).setLastFixed (some ijr)) true

/-- Boolean check that a block records a non-empty fixed range. -/
def fixedOKb (bl : BlockM) : Bool :=
  match bl.fixedR with | some r => decide (r.lo ≤ r.hi) | none => false

theorem jrSub_refl (r : JR) : jrSub r r := ⟨le_refl _, le_refl _⟩

theorem jrSub_trans {r s t : JR} (h1 : jrSub r s) (h2 : jrSub s t) :
    jrSub r t := ⟨le_trans h2.1 h1.1, le_trans h1.2 h2.2⟩

theorem listGrow_refl (l : List BlockM) : listGrow l l :=
  ⟨le_refl _, fun _ _ => jrSub_refl _⟩

theorem listGrow_trans {l0 l1 l2 : List BlockM} (h1 : listGrow l0 l1)
    (h2 : listGrow l1 l2) : listGrow l0 l2 :=
  ⟨le_trans h1.1 h2.1,
   fun k hk => jrSub_trans (h1.2 k hk) (h2.2 k (lt_of_lt_of_le hk h1.1))⟩

theorem length_setAt (l : List BlockM) (n : Nat) (blk : BlockM) :
    (setAt l n blk).length = if n < l.length then l.length else l.length + 1 := by
  unfold setAt
  split
  · rw [List.length_set]
  · simp

theorem getD_setAt_self (l : List BlockM) (n : Nat) (blk : BlockM)
    (hn : n ≤ l.length) : (setAt l n blk).getD n default = blk := by
  unfold setAt
  split
  · rw [List.getD_eq_getElem?_getD, List.getElem?_set]
    rw [if_pos rfl, if_pos (by assumption)]
    rfl
  · have he : n = l.length := by omega
    subst he
    rw [List.getD_eq_getElem?_getD, List.getElem?_append_right (le_refl _)]
    simp

theorem getD_setAt_ne (l : List BlockM) (n : Nat) (blk : BlockM) (k : Nat)
    (hk : k < l.length) (hne : k ≠ n) :
    (setAt l n blk).getD k default = l.getD k default := by
  unfold setAt
  split
  · rw [List.getD_eq_getElem?_getD, List.getElem?_set,
      if_neg (fun hc => hne hc.symm), List.getD_eq_getElem?_getD]
  · rw [List.getD_eq_getElem?_getD, List.getElem?_append_left hk,
      List.getD_eq_getElem?_getD]

theorem getD_modify_self (l : List BlockM) (f : BlockM → BlockM) (n : Nat)
    (hn : n < l.length) :
    (l.modify f n).getD n default = f (l.getD n default) := by
  have hn2 : n < (l.modify f n).length := by rw [List.length_modify]; exact hn
  rw [List.getD_eq_getElem?_getD, List.getElem?_eq_getElem hn2,
    List.getD_eq_getElem?_getD, List.getElem?_eq_getElem hn]
  simp [List.getElem_modify]

theorem getD_modify_ne (l : List BlockM) (f : BlockM → BlockM) (n k : Nat)
    (hne : n ≠ k) : (l.modify f n).getD k default = l.getD k default := by
  rw [List.getD_eq_getElem?_getD, List.getD_eq_getElem?_getD]
  by_cases hk : k < l.length
  · have hk2 : k < (l.modify f n).length := by rw [List.length_modify]; exact hk
    rw [List.getElem?_eq_getElem hk2, List.getElem?_eq_getElem hk]
    simp [List.getElem_modify, if_neg hne]
  · have h1 : l[k]? = none := List.getElem?_eq_none (by omega)
    have h2 : (l.modify f n)[k]? = none :=
      List.getElem?_eq_none (by rw [List.length_modify]; omega)
    rw [h1, h2]

theorem nextJR_some (bs : BlocksM) (r : JR) (h : bs.nextJR = some r) :
    bs.cur + 1 < bs.stored.length ∧
    (bs.stored.getD (bs.cur + 1) default).jr = r := by
  unfold BlocksM.nextJR at h
  rcases ho : bs.stored.get? (bs.cur + 1) with _ | bl
  · rw [ho] at h
    exact absurd h (by simp)
  · rw [ho] at h
    rw [show (some bl).map (fun bl => bl.jr) = some bl.jr from rfl] at h
    obtain ⟨hlt, _⟩ := List.get?_eq_some.mp ho
    refine ⟨hlt, ?_⟩
    rw [List.getD_eq_getElem?_getD, ← List.get?_eq_getElem?, ho]
    injection h

theorem listGrow_setAt (l : List BlockM) (n : Nat) (blk : BlockM)
    (hj : n < l.length → jrSub ((l.getD n default).jr) blk.jr) :
    listGrow l (setAt l n blk) := by
  constructor
  · rw [length_setAt]; split <;> omega
  · intro k hk
    by_cases he : k = n
    · subst he
      rw [getD_setAt_self l k blk (le_of_lt hk)]
      exact hj hk
    · rw [getD_setAt_ne l n blk k hk he]
      exact jrSub_refl _

theorem listGrow_modify (l : List BlockM) (n : Nat) (r : Option JR) :
    listGrow l (l.modify (fun bl => { bl with fixedR := r }) n) := by
  constructor
  · rw [List.length_modify]
  · intro k hk
    by_cases he : n = k
    · subst he
      rw [getD_modify_self _ _ _ hk]
      exact jrSub_refl _
    · rw [getD_modify_ne _ _ _ _ he]
      exact jrSub_refl _

theorem storedOK_setAt (blen : Int) (l : List BlockM) (n : Nat) (blk : BlockM)
    (hn : n ≤ l.length) (hok : storedOK blen l) (hb0 : 0 ≤ blk.jr.lo)
    (hb1 : blk.jr.hi ≤ blen) : storedOK blen (setAt l n blk) := by
  intro k hk
  rw [length_setAt] at hk
  by_cases he : k = n
  · subst he
    rw [getD_setAt_self l k blk hn]
    exact ⟨hb0, hb1⟩
  · have hkl : k < l.length := by revert hk; split <;> omega
    rw [getD_setAt_ne l n blk k hkl he]
    exact hok k hkl

theorem inter_bounds (r2 jr : JR) (blen : Int)
    (he : JR.inter r2 ⟨0, blen⟩ = jr) : 0 ≤ jr.lo ∧ jr.hi ≤ blen := by
  rw [← he]
  simp only [JR.inter]
  constructor
  · exact le_max_right _ _
  · exact min_le_right _ _

theorem union_inter_mono (rb o jr : JR) (blen : Int)
    (he : JR.inter (JR.union rb o) ⟨0, blen⟩ = jr) (h0 : 0 ≤ o.lo)
    (h1 : o.hi ≤ blen) : jr.lo ≤ o.lo ∧ o.hi ≤ jr.hi := by
  rw [← he]
  simp only [JR.inter, JR.union]
  omega

theorem jRangeE_ok_bounds (alen blen : Int) (dom : DomainE)
    (h : Int × Int → Int) (sparse : Bool) (bw : Int) (iR : Int × Int)
    (fmax : Option Int) (prev : BlockM) (old : Option JR) (jr : JR)
    (hok : jRangeE alen blen dom h sparse bw iR fmax prev old = .ok jr) :
    (0 ≤ jr.lo ∧ jr.hi ≤ blen) ∧
    (∀ r, old = some r → 0 ≤ r.lo → r.hi ≤ blen →
      jr.lo ≤ r.lo ∧ r.hi ≤ jr.hi) := by
  cases fmax with
  | none =>
    injection hok with h1
    rw [← h1]
    exact ⟨⟨le_refl 0, le_refl blen⟩, fun r hr hr0 hr1 => ⟨hr0, hr1⟩⟩
  | some f =>
    cases old with
    | none =>
      refine ?_
      have hmono : ∀ r : JR, (none : Option JR) = some r → 0 ≤ r.lo →
          r.hi ≤ blen → jr.lo ≤ r.lo ∧ r.hi ≤ jr.hi := by
        intro r hr
        exact absurd hr (by simp)
      cases dom with
      | full =>
        injection hok with h1
        exact ⟨inter_bounds _ _ _ h1, hmono⟩
      | gapStart =>
        injection hok with h1
        exact ⟨inter_bounds _ _ _ h1, hmono⟩
      | gapGap =>
        injection hok with h1
        exact ⟨inter_bounds _ _ _ h1, hmono⟩
      | astar =>
        have hrw : jRangeE alen blen .astar h sparse bw iR (some f) prev
            none =
            (match jRangeAstar blen h sparse bw iR.1 iR.2 f prev none with
             | .error e => .error e
             | .ok rb => .ok (rb.inter ⟨0, blen⟩)) := rfl
        rw [hrw] at hok
        rcases hb : jRangeAstar blen h sparse bw iR.1 iR.2 f prev none
          with e | rb <;> rw [hb] at hok
        · exact absurd hok (by simp)
        · injection hok with h1
          exact ⟨inter_bounds _ _ _ h1, hmono⟩
    | some o =>
      have hmono : ∀ jr2 : JR, JR.inter (JR.union jr2 o) ⟨0, blen⟩ = jr →
          ∀ r : JR, some o = some r → 0 ≤ r.lo → r.hi ≤ blen →
          jr.lo ≤ r.lo ∧ r.hi ≤ jr.hi := by
        intro jr2 he r hr hr0 hr1
        have hor : o = r := by injection hr
        rw [← hor] at hr0 hr1 ⊢
        exact union_inter_mono _ _ _ _ he hr0 hr1
      cases dom with
      | full =>
        injection hok with h1
        exact ⟨inter_bounds _ _ _ h1, hmono _ h1⟩
      | gapStart =>
        injection hok with h1
        exact ⟨inter_bounds _ _ _ h1, hmono _ h1⟩
      | gapGap =>
        injection hok with h1
        exact ⟨inter_bounds _ _ _ h1, hmono _ h1⟩
      | astar =>
        have hrw : jRangeE alen blen .astar h sparse bw iR (some f) prev
            (some o) =
            (match jRangeAstar blen h sparse bw iR.1 iR.2 f prev (some o) with
             | .error e => .error e
             | .ok rb => .ok ((rb.union o).inter ⟨0, blen⟩)) := rfl
        rw [hrw] at hok
        rcases hb : jRangeAstar blen h sparse bw iR.1 iR.2 f prev (some o)
          with e | rb <;> rw [hb] at hok
        · exact absurd hok (by simp)
        · injection hok with h1
          exact ⟨inter_bounds _ _ _ h1, hmono _ h1⟩

theorem storedOK_modify (blen : Int) (l : List BlockM) (n : Nat)
    (r : Option JR) (hok : storedOK blen l) :
    storedOK blen (l.modify (fun bl => { bl with fixedR := r }) n) := by
  intro k hk
  rw [List.length_modify] at hk
  by_cases he : n = k
  · subst he
    rw [getD_modify_self _ _ _ hk]
    exact hok n hk
  · rw [getD_modify_ne _ _ _ _ he]
    exact hok k hk

theorem nextJR_of_lt (bs : BlocksM) (hlt : bs.cur + 1 < bs.stored.length) :
    bs.nextJR = some ((bs.stored.getD (bs.cur + 1) default).jr) := by
  unfold BlocksM.nextJR
  rw [List.get?_eq_getElem?, List.getElem?_eq_getElem hlt,
    List.getD_eq_getElem?_getD, List.getElem?_eq_getElem hlt]
  rfl

theorem alignLoop_grow (a b : List Nat) (dom : DomainE) (h : Int × Int → Int)
    (sparse : Bool) (bw : Nat) (prune : Bool) (fmax : Option Int) :
    ∀ (irs : List (Int × Int)) (bs : BlocksM) (ar : Bool),
      storedOK (b.length : Int) bs.stored → bs.cur < bs.stored.length →
      listGrow bs.stored
        (alignLoop a b dom h sparse bw prune fmax irs bs ar).blocks.stored := by
  intro irs
  induction irs with
  | nil =>
    intro bs ar _ _
    simp only [alignLoop]
    split <;> exact listGrow_refl _
  | cons ir rest IH =>
    intro bs ar hok hcur
    simp only [alignLoop]
    rcases hjr : jRangeE (a.length : Int) (b.length : Int) dom h sparse
        (bw : Int) ir fmax bs.lastB bs.nextJR with e | jr
    · simp only [hjr]
      exact listGrow_refl _
    · simp only [hjr]
      by_cases hje : jr.isEmpty = true
      · rw [if_pos hje]
        split <;> exact listGrow_refl _
      · rw [if_neg hje]
        by_cases hre : (bs.nextJR = some jr ∧ ar = true)
        · rw [if_pos hre]
          obtain ⟨hlt, hjr2⟩ := nextJR_some bs jr hre.1
          have hok2 : storedOK (b.length : Int) bs.reuseNext.stored := hok
          have hcur2 : bs.reuseNext.cur < bs.reuseNext.stored.length := hlt
          have hgrow2 : listGrow bs.stored bs.reuseNext.stored :=
            listGrow_refl _
          split
          · exact hgrow2
          · split
            · exact listGrow_trans hgrow2 (listGrow_modify _ _ _)
            · refine listGrow_trans hgrow2 (listGrow_trans
                (listGrow_modify _ _ _)
                (IH (bs.reuseNext.setLastFixed
                    (fixedJRangeE dom h sparse ir.2 fmax bs.reuseNext.lastB))
                  (ar && decide (bs.nextJR = some jr ∧ ar = true)) ?_ ?_))
              · exact storedOK_modify _ _ _ _ hok2
              · show bs.reuseNext.cur <
                  (bs.reuseNext.stored.modify _ bs.reuseNext.cur).length
                rw [List.length_modify]
                exact hcur2
        · rw [if_neg hre]
          have hb := jRangeE_ok_bounds (a.length : Int) (b.length : Int) dom h
            sparse (bw : Int) ir fmax bs.lastB bs.nextJR jr hjr
          have hgrow2 : listGrow bs.stored (bs.computeNext a b ir jr).stored := by
            refine listGrow_setAt bs.stored (bs.cur + 1) _ ?_
            intro hlt
            exact hb.2 _ (nextJR_of_lt bs hlt) (hok _ hlt).1 (hok _ hlt).2
          have hok2 : storedOK (b.length : Int) (bs.computeNext a b ir jr).stored :=
            storedOK_setAt _ _ _ _ (by omega) hok hb.1.1 hb.1.2
          have hcur2 : (bs.computeNext a b ir jr).cur <
              (bs.computeNext a b ir jr).stored.length := by
            show bs.cur + 1 < (setAt bs.stored (bs.cur + 1) _).length
            rw [length_setAt]
            split <;> omega
          split
          · exact hgrow2
          · split
            · exact listGrow_trans hgrow2 (listGrow_modify _ _ _)
            · refine listGrow_trans hgrow2 (listGrow_trans
                (listGrow_modify _ _ _)
                (IH ((bs.computeNext a b ir jr).setLastFixed
                    (fixedJRangeE dom h sparse ir.2 fmax
                      (bs.computeNext a b ir jr).lastB))
                  (ar && decide (bs.nextJR = some jr ∧ ar = true)) ?_ ?_))
              · exact storedOK_modify _ _ _ _ hok2
              · show (bs.computeNext a b ir jr).cur <
                  ((bs.computeNext a b ir jr).stored.modify _
                    (bs.computeNext a b ir jr).cur).length
                rw [List.length_modify]
                exact hcur2

theorem alignBD_grow (a b : List Nat) (dom : DomainE) (h : Int × Int → Int)
    (sparse : Bool) (bw : Nat) (prune : Bool) (fmax : Option Int)
    (bs0 : BlocksM) (h0 : storedOK (b.length : Int) bs0.stored) :
    listGrow bs0.stored
      (alignBD a b dom h sparse bw prune fmax bs0).blocks.stored := by
  simp only [alignBD]
  split
  · exact listGrow_refl _
  · rcases hjr : jRangeE (a.length : Int) (b.length : Int) dom h sparse
        (bw : Int) (-1, 0) fmax ⟨0, ⟨0, 0⟩, some ⟨-1, -1⟩, []⟩
        ((bs0.stored.get? 0).map (fun bl => bl.jr)) with e | ijr
    · simp only [hjr]
      exact listGrow_refl _
    · simp only [hjr]
      split
      · exact listGrow_refl _
      · have hb := jRangeE_ok_bounds _ _ _ _ _ _ _ _ _ _ _ hjr
        have hgrow1 : listGrow bs0.stored (bs0.init ijr).stored := by
          refine listGrow_setAt bs0.stored 0 _ ?_
          intro hlt
          refine hb.2 _ ?_ (h0 0 hlt).1 (h0 0 hlt).2
          rw [List.get?_eq_getElem?, List.getElem?_eq_getElem hlt,
            List.getD_eq_getElem?_getD, List.getElem?_eq_getElem hlt]
          rfl
        have hok1 : storedOK (b.length : Int) (bs0.init ijr).stored :=
          storedOK_setAt _ _ _ _ (by omega) h0 hb.1.1 hb.1.2
        have hcur1 : ((bs0.init ijr).setLastFixed (some ijr)).cur <
            ((bs0.init ijr).setLastFixed (some ijr)).stored.length := by
          show 0 < ((bs0.init ijr).stored.modify _ 0).length
          rw [List.length_modify]
          show 0 < (setAt bs0.stored 0 _).length
          rw [length_setAt]
          split <;> omega
        exact listGrow_trans hgrow1 (listGrow_trans (listGrow_modify _ _ _)
          (alignLoop_grow a b dom h sparse bw prune fmax _
            ((bs0.init ijr).setLastFixed (some ijr)) true
            (storedOK_modify _ _ _ _ hok1) hcur1))

/-- C4: every `j_range` call with `old_range = Some r`, `r` a subrange of
`[0, |B|]`, returns a range containing `r` and contained in `[0, |B|]`; and
consequently one `align_for_bounded_dist` call only grows the store: it never
drops a stored block and every stored `j_range` at a fixed column widens
(across doubling iterations the stored range is therefore monotone). -/
theorem c4_j_range_never_shrinks :
    (∀ (alen blen : Int) (dom : DomainE) (h : Int × Int → Int) (sparse : Bool)
        (bw : Int) (iR : Int × Int) (fmax : Option Int) (prev : BlockM)
        (r jr : JR), 0 ≤ r.lo → r.hi ≤ blen →
        jRangeE alen blen dom h sparse bw iR fmax prev (some r) = .ok jr →
        jr.lo ≤ r.lo ∧ r.hi ≤ jr.hi ∧ 0 ≤ jr.lo ∧ jr.hi ≤ blen) ∧
    (∀ (a b : List Nat) (dom : DomainE) (h : Int × Int → Int) (sparse : Bool)
        (bw : Nat) (prune : Bool) (fmax : Option Int) (bs0 : BlocksM),
        storedOK (b.length : Int) bs0.stored →
        listGrow bs0.stored
          (alignBD a b dom h sparse bw prune fmax bs0).blocks.stored) := by
  constructor
  · intro alen blen dom h sparse bw iR fmax prev r jr hr0 hr1 hok
    have hb := jRangeE_ok_bounds alen blen dom h sparse bw iR fmax prev
      (some r) jr hok
    have hm := hb.2 r rfl hr0 hr1
    exact ⟨hm.1, hm.2, hb.1.1, hb.1.2⟩
  · exact alignBD_grow

theorem c4_j_range_never_shrinks_witness :
    ((0 : Int) ≤ (⟨0, 1⟩ : JR).lo ∧ (⟨0, 1⟩ : JR).hi ≤ 4 ∧
      jRangeE 2 4 .gapStart (fun _ => 0) false 2 (0, 2) (some 1) default
        (some ⟨0, 1⟩) = .ok ⟨0, 3⟩ ∧
      ((⟨0, 3⟩ : JR).lo ≤ (⟨0, 1⟩ : JR).lo ∧
        (⟨0, 1⟩ : JR).hi ≤ (⟨0, 3⟩ : JR).hi ∧
        0 ≤ (⟨0, 3⟩ : JR).lo ∧ (⟨0, 3⟩ : JR).hi ≤ 4)) ∧
    (storedOK (([0, 0, 0, 0] : List Nat).length : Int)
        (⟨[], 0⟩ : BlocksM).stored ∧
      listGrow (⟨[], 0⟩ : BlocksM).stored
        (alignBD [0, 0] [0, 0, 0, 0] .gapStart (fun _ => 0) false 2 false
          (some 1) ⟨[], 0⟩).blocks.stored) := by
  constructor
  · refine ⟨by decide, by decide, by rfl, ?_⟩
    exact c4_j_range_never_shrinks.1 2 4 .gapStart (fun _ => 0) false 2 (0, 2)
      (some 1) default ⟨0, 1⟩ ⟨0, 3⟩ (by decide) (by decide) (by rfl)
  · have hst : storedOK (([0, 0, 0, 0] : List Nat).length : Int)
        (⟨[], 0⟩ : BlocksM).stored := by
      intro k hk
      exact absurd hk (by simp)
    exact ⟨hst, c4_j_range_never_shrinks.2 [0, 0] [0, 0, 0, 0] .gapStart
      (fun _ => 0) false 2 false (some 1) ⟨[], 0⟩ hst⟩

theorem alignLoop_none_iff (a b : List Nat) (dom : DomainE)
    (h : Int × Int → Int) (sparse : Bool) (bw : Nat) (prune : Bool)
    (fmax : Option Int) :
    ∀ (irs : List (Int × Int)) (bs : BlocksM) (ar : Bool),
      ((alignLoop a b dom h sparse bw prune fmax irs bs ar).res = .ok none ↔
        (loopWhy a b dom h sparse bw prune fmax irs bs ar).isSome = true) := by
  intro irs
  induction irs with
  | nil =>
    intro bs ar
    simp only [alignLoop, loopWhy]
    rcases hg : bs.lastB.get (b.length : Int) with _ | d <;> simp [hg]
  | cons ir rest IH =>
    intro bs ar
    simp only [alignLoop, loopWhy]
    rcases hjr : jRangeE (a.length : Int) (b.length : Int) dom h sparse
        (bw : Int) ir fmax bs.lastB bs.nextJR with e | jr <;>
      simp only [hjr]
    · simp
    · have hcont : ∀ bs2 : BlocksM,
          ((if (match fixedJRangeE dom h sparse ir.2 fmax bs2.lastB with
                | some r => r.isEmpty
                | none => false) = true then
              (⟨.ok none, bs2, [bs.lastB]⟩ : AlignOut)
            else if prune ∧ dom = .astar ∧ bs.lastB.fixedR = none then
              (⟨.error .pruneUnwrap,
                bs2.setLastFixed
                  (fixedJRangeE dom h sparse ir.2 fmax bs2.lastB),
                [bs.lastB]⟩ : AlignOut)
            else
              (⟨(alignLoop a b dom h sparse bw prune fmax rest
                    (bs2.setLastFixed
                      (fixedJRangeE dom h sparse ir.2 fmax bs2.lastB))
                    (ar && decide (bs.nextJR = some jr ∧ ar = true))).res,
                (alignLoop a b dom h sparse bw prune fmax rest
                    (bs2.setLastFixed
                      (fixedJRangeE dom h sparse ir.2 fmax bs2.lastB))
                    (ar && decide (bs.nextJR = some jr ∧ ar = true))).blocks,
                bs.lastB ::
                  (alignLoop a b dom h sparse bw prune fmax rest
                      (bs2.setLastFixed
                        (fixedJRangeE dom h sparse ir.2 fmax bs2.lastB))
                      (ar && decide (bs.nextJR = some jr ∧ ar = true))).prevs⟩ :
                AlignOut)).res = .ok none ↔
            (if (match fixedJRangeE dom h sparse ir.2 fmax bs2.lastB with
                | some r => r.isEmpty
                | none => false) = true then
              some NoneWhy.emptyFixed
            else if prune ∧ dom = .astar ∧ bs.lastB.fixedR = none then
              none
            else
              loopWhy a b dom h sparse bw prune fmax rest
                (bs2.setLastFixed
                  (fixedJRangeE dom h sparse ir.2 fmax bs2.lastB))
                (ar && decide (bs.nextJR = some jr ∧ ar = true))).isSome =
              true) := by
        intro bs2
        by_cases hnf : (match fixedJRangeE dom h sparse ir.2 fmax bs2.lastB with
            | some r => r.isEmpty | none => false) = true
        · rw [if_pos hnf, if_pos hnf]
          simp
        · rw [if_neg hnf, if_neg hnf]
          by_cases hpr : (prune ∧ dom = .astar ∧ bs.lastB.fixedR = none)
          · rw [if_pos hpr, if_pos hpr]
            simp
          · rw [if_neg hpr, if_neg hpr]
            exact IH _ _
      by_cases hje : jr.isEmpty = true
      · rw [if_pos hje, if_pos hje]
        by_cases hnx : bs.nextJR ≠ none
        · rw [if_pos hnx, if_pos hnx]
          simp
        · rw [if_neg hnx, if_neg hnx]
          simp
      · rw [if_neg hje, if_neg hje]
        by_cases hre : (bs.nextJR = some jr ∧ ar = true)
        · rw [if_pos hre]
          exact hcont _
        · rw [if_neg hre]
          exact hcont _

/-- C7: the exits of `align_for_bounded_dist` that return `None` are exactly
enumerated by the replay `alignWhy`: `0` outside the initial `j_range`, an
empty block `j_range`, an empty recomputed `fixed_j_range`, or — the case the
claim misses — `|B|` falling outside the last block's `j_range` so that the
final `get` returns `None`. -/
theorem c7_none_exactly_when (a b : List Nat) (dom : DomainE)
    (h : Int × Int → Int) (sparse : Bool) (bw : Nat) (prune : Bool)
    (fmax : Option Int) (bs0 : BlocksM) :
    ((alignBD a b dom h sparse bw prune fmax bs0).res = .ok none ↔
      ∃ w, alignWhy a b dom h sparse bw prune fmax bs0 = some w) := by
  have hiff : ((alignBD a b dom h sparse bw prune fmax bs0).res = .ok none ↔
      (alignWhy a b dom h sparse bw prune fmax bs0).isSome = true) := by
    simp only [alignBD, alignWhy]
    by_cases hneg : (match fmax with
        | some f => decide (f < 0) | none => false) = true
    · rw [if_pos hneg, if_pos hneg]
      simp
    · rw [if_neg hneg, if_neg hneg]
      rcases hjr : jRangeE (a.length : Int) (b.length : Int) dom h sparse
          (bw : Int) (-1, 0) fmax ⟨0, ⟨0, 0⟩, some ⟨-1, -1⟩, []⟩
          ((bs0.stored.get? 0).map (fun bl => bl.jr)) with e | ijr <;>
        simp only [hjr]
      · simp
      · by_cases hg : (ijr.isEmpty = true ∨ 0 < ijr.lo)
        · rw [if_pos hg, if_pos hg]
          simp
        · rw [if_neg hg, if_neg hg]
          exact alignLoop_none_iff a b dom h sparse bw prune fmax _ _ _
  rw [hiff, Option.isSome_iff_exists]

theorem c7_counterexample :
    (alignBD [0, 0] [0, 0, 0, 0] .gapStart (fun _ => 0) false 2 false (some 1)
        ⟨[], 0⟩).res = .ok none ∧
    alignWhy [0, 0] [0, 0, 0, 0] .gapStart (fun _ => 0) false 2 false (some 1)
        ⟨[], 0⟩ = some .finalGet ∧
    (alignBD [0, 0] [0, 0, 0, 0] .gapStart (fun _ => 0) false 2 false (some 1)
        ⟨[], 0⟩).blocks.lastB.jr = ⟨0, 3⟩ ∧
    (alignBD [0, 0] [0, 0, 0, 0] .gapStart (fun _ => 0) false 2 false (some 1)
        ⟨[], 0⟩).blocks.lastB.get 4 = none := by
  exact ⟨rfl, rfl, rfl, rfl⟩

theorem fLB_error (gu : Int) (u : Int × Int) (h : Int × Int → Int)
    (v : Int × Int) (e : PK) (he : fLB gu u h v = .error e) :
    e = .fAboveDiag := by
  unfold fLB at he
  split at he
  · exact absurd he (by simp)
  · injection he with h1
    exact h1.symm

theorem descendLoop_error (fc : Int → Except PK Int) (blen fmax : Int) (e : PK)
    (hfc : ∀ j e2, fc j = .error e2 → e2 = .fAboveDiag) :
    ∀ vj, descendLoop fc blen fmax vj = .error e → e = .fAboveDiag := by
  intro vj
  induction vj using descendLoop.induct fc blen fmax with
  | case1 x hle e2 hfc2 =>
    intro hd
    rw [descendLoop, if_pos hle, hfc2] at hd
    have hd2 : (Except.error e2 : Except PK Int) = .error e := hd
    injection hd2 with h1
    exact h1 ▸ hfc x e2 hfc2
  | case2 x hle fv hfc2 hfle ih =>
    intro hd
    rw [descendLoop, if_pos hle, hfc2] at hd
    simp only [if_pos hfle] at hd
    exact ih hd
  | case3 x hle fv hfc2 hgt =>
    intro hd
    rw [descendLoop, if_pos hle, hfc2] at hd
    simp only [if_neg hgt] at hd
    exact absurd hd (by simp)
  | case4 x hle =>
    intro hd
    rw [descendLoop, if_neg hle] at hd
    exact absurd hd (by simp)

theorem nonSparseLoop_error (h : Int × Int → Int) (gu : Int) (u : Int × Int)
    (blen fmax ie : Int) (e : PK) :
    ∀ v, nonSparseLoop h gu u blen fmax ie v = .error e →
      e = .fAboveDiag := by
  intro v
  induction v using nonSparseLoop.induct h gu u blen fmax ie with
  | case1 v hlt e2 hd =>
    intro hn
    rw [nonSparseLoop, if_pos hlt, hd] at hn
    have hn2 : (Except.error e2 : Except PK (Int × Int)) = .error e := hn
    injection hn2 with h1
    refine h1 ▸ descendLoop_error _ blen fmax e2 ?_ _ hd
    intro j e3 he3
    exact fLB_error _ _ _ _ _ he3
  | case2 v hlt j2 hd ih =>
    intro hn
    rw [nonSparseLoop, if_pos hlt, hd] at hn
    exact ih hn
  | case3 v hlt =>
    intro hn
    rw [nonSparseLoop, if_neg hlt] at hn
    exact absurd hn (by simp)

theorem sparseLoop1_error (h : Int × Int → Int) (gu : Int) (u : Int × Int)
    (blen fmax ie : Int) (e : PK) :
    ∀ v, sparseLoop1 h gu u blen fmax ie v = .error e →
      e = .fAboveDiag := by
  intro v
  induction v using sparseLoop1.induct h gu u blen fmax ie with
  | case1 v hc e2 hf =>
    intro hs
    rw [sparseLoop1, if_pos hc, hf] at hs
    have hs2 : (Except.error e2 : Except PK (Int × Int)) = .error e := hs
    injection hs2 with h1
    exact h1 ▸ fLB_error _ _ _ _ _ hf
  | case2 v hc fv hf hle ih =>
    intro hs
    rw [sparseLoop1, if_pos hc, hf] at hs
    simp only [if_pos hle] at hs
    exact ih hs
  | case3 v hc fv hf hgt ih =>
    intro hs
    rw [sparseLoop1, if_pos hc, hf] at hs
    simp only [if_neg hgt] at hs
    exact ih hs
  | case4 v hc =>
    intro hs
    rw [sparseLoop1, if_neg hc] at hs
    exact absurd hs (by simp)

theorem sparseLoop2_error (h : Int × Int → Int) (gu : Int) (u : Int × Int)
    (blen fmax diag ie : Int) (e : PK) :
    ∀ vj, sparseLoop2 h gu u blen fmax diag ie vj = .error e →
      e = .fAboveDiag := by
  intro vj
  induction vj using sparseLoop2.induct h gu u blen fmax diag ie with
  | case1 x hc =>
    intro hs
    rw [sparseLoop2, if_pos hc] at hs
    exact absurd hs (by simp)
  | case2 x hc e2 hf =>
    intro hs
    rw [sparseLoop2, if_neg hc, hf] at hs
    have hs2 : (Except.error e2 : Except PK Int) = .error e := hs
    injection hs2 with h1
    exact h1 ▸ fLB_error _ _ _ _ _ hf
  | case3 x hc fv hf hle =>
    intro hs
    rw [sparseLoop2, if_neg hc, hf] at hs
    simp only [if_pos hle] at hs
    exact absurd hs (by simp)
  | case4 x hc fv hf hgt vj2 hlt =>
    intro hs
    rw [sparseLoop2, if_neg hc, hf] at hs
    simp only [if_neg hgt] at hs
    rw [if_pos (show x - divCeilI (fv - fmax) 2 < diag from hlt)] at hs
    exact absurd hs (by simp)
  | case5 x hc fv hf hgt vj2 hnlt ih =>
    intro hs
    rw [sparseLoop2, if_neg hc, hf] at hs
    simp only [if_neg hgt] at hs
    rw [if_neg (show ¬x - divCeilI (fv - fmax) 2 < diag from hnlt)] at hs
    exact ih hs

theorem except_bind_error {α β : Type} (m : Except PK α)
    (k : α → Except PK β) (e : PK)
    (hm : ∀ e2, m = .error e2 → e2 = .fAboveDiag)
    (hk : ∀ a e2, k a = .error e2 → e2 = .fAboveDiag)
    (he : m.bind k = .error e) : e = .fAboveDiag := by
  rcases m with e1 | a
  · have h2 : (Except.error e1 : Except PK β) = .error e := he
    injection h2 with h3
    exact h3 ▸ hm e1 rfl
  · exact hk a e he

theorem jRangeAstar_good_error (blen : Int) (h : Int × Int → Int)
    (sparse : Bool) (bw : Int) (is ie f : Int) (prev : BlockM)
    (old : Option JR) (e : PK) (r : JR) (hfr : prev.fixedR = some r)
    (hre : r.lo ≤ r.hi)
    (he : jRangeAstar blen h sparse bw is ie f prev old = .error e) :
    e = .fAboveDiag := by
  obtain ⟨pi, pjr, pfR, pv⟩ := prev
  have hfr2 : pfR = some r := hfr
  subst hfr2
  unfold jRangeAstar at he
  dsimp only at he
  rw [pure_bind] at he
  rw [if_neg (by omega : ¬r.hi < r.lo)] at he
  rw [pure_bind] at he
  cases sparse with
  | false =>
    exact except_bind_error _ _ _
      (fun e2 h2 => nonSparseLoop_error _ _ _ _ _ _ e2 _ h2)
      (fun a e2 h2 => absurd (show Except.ok _ = Except.error e2 from h2) (by simp)) he
  | true =>
    exact except_bind_error _ _ _
      (fun e2 h2 => sparseLoop1_error _ _ _ _ _ _ e2 _ h2)
      (fun v1 e2 h2 => except_bind_error _ _ _
        (fun e3 h3 => sparseLoop2_error _ _ _ _ _ _ _ e3 _ h3)
        (fun vj e3 h3 => absurd (show Except.ok _ = Except.error e3 from h3) (by simp)) h2) he

theorem jRangeE_error_kind (alen blen : Int) (dom : DomainE)
    (h : Int × Int → Int) (sparse : Bool) (bw : Int) (iR : Int × Int)
    (fmax : Option Int) (prev : BlockM) (old : Option JR) (e : PK)
    (hgood : dom = .astar → ∀ f, fmax = some f →
      ∃ r, prev.fixedR = some r ∧ r.lo ≤ r.hi)
    (he : jRangeE alen blen dom h sparse bw iR fmax prev old = .error e) :
    e = .fAboveDiag := by
  cases fmax with
  | none => exact absurd he (by simp [jRangeE])
  | some f =>
    cases dom with
    | full => exact absurd he (by simp [jRangeE])
    | gapStart => exact absurd he (by simp [jRangeE])
    | gapGap => exact absurd he (by simp [jRangeE])
    | astar =>
      obtain ⟨r, hfr, hre⟩ := hgood rfl f rfl
      have hrw : jRangeE alen blen .astar h sparse bw iR (some f) prev old =
          (match jRangeAstar blen h sparse bw iR.1 iR.2 f prev old with
           | .error e2 => (.error e2 : Except PK JR)
           | .ok rb => .ok ((match old with
               | some o => rb.union o
               | none => rb).inter ⟨0, blen⟩)) := rfl
      rw [hrw] at he
      rcases hb : jRangeAstar blen h sparse bw iR.1 iR.2 f prev old
        with e2 | rb <;> rw [hb] at he
      · have he3 : (Except.error e2 : Except PK JR) = .error e := he
        injection he3 with h1
        exact h1 ▸ jRangeAstar_good_error blen h sparse bw iR.1 iR.2 f prev
          old e2 r hfr hre hb
      · have he3 : (Except.ok ((match old with
            | some o => rb.union o
            | none => rb).inter ⟨0, blen⟩) : Except PK JR) = .error e := he
        exact absurd he3 (by simp)

theorem alignLoop_no_bad_panic (a b : List Nat) (dom : DomainE)
    (h : Int × Int → Int) (sparse : Bool) (bw : Nat) (prune : Bool)
    (fmax : Option Int) :
    ∀ (irs : List (Int × Int)) (bs : BlocksM) (ar : Bool),
      (dom = .astar → ∀ f, fmax = some f →
        bs.cur < bs.stored.length ∧
        ∃ r, bs.lastB.fixedR = some r ∧ r.lo ≤ r.hi) →
      ((alignLoop a b dom h sparse bw prune fmax irs bs ar).res ≠
          .error .expectFixedNone ∧
        (alignLoop a b dom h sparse bw prune fmax irs bs ar).res ≠
          .error .fixedEmptyAssert) ∧
      (dom = .astar → ∀ f, fmax = some f →
        ∀ blk ∈ (alignLoop a b dom h sparse bw prune fmax irs bs ar).prevs,
          ∃ r, blk.fixedR = some r ∧ r.lo ≤ r.hi) := by
  intro irs
  induction irs with
  | nil =>
    intro bs ar hinv
    simp only [alignLoop]
    constructor
    · split <;> exact ⟨by simp, by simp⟩
    · split <;> (intro hd f hf blk hblk; exact absurd hblk (by simp))
  | cons ir rest IH =>
    intro bs ar hinv
    simp only [alignLoop]
    rcases hjr : jRangeE (a.length : Int) (b.length : Int) dom h sparse
        (bw : Int) ir fmax bs.lastB bs.nextJR with e | jr <;>
      simp only [hjr]
    · have hek : e = .fAboveDiag := jRangeE_error_kind (a.length : Int)
        (b.length : Int) dom h sparse (bw : Int) ir fmax bs.lastB bs.nextJR e
        (fun hd f hf => (hinv hd f hf).2) hjr
      subst hek
      refine ⟨⟨by simp, by simp⟩, ?_⟩
      intro hd f hf blk hblk
      rw [List.mem_singleton] at hblk
      rw [hblk]
      exact (hinv hd f hf).2
    · by_cases hje : jr.isEmpty = true
      · rw [if_pos hje]
        split
        · refine ⟨⟨by simp, by simp⟩, ?_⟩
          intro hd f hf blk hblk
          rw [List.mem_singleton] at hblk
          rw [hblk]
          exact (hinv hd f hf).2
        · refine ⟨⟨by simp, by simp⟩, ?_⟩
          intro hd f hf blk hblk
          rw [List.mem_singleton] at hblk
          rw [hblk]
          exact (hinv hd f hf).2
      · rw [if_neg hje]
        by_cases hre : (bs.nextJR = some jr ∧ ar = true)
        · rw [if_pos hre]
          have hcur2 : dom = .astar → ∀ f, fmax = some f →
              bs.reuseNext.cur < bs.reuseNext.stored.length :=
            fun _ _ _ => (nextJR_some bs jr hre.1).1
          by_cases hnf : (match fixedJRangeE dom h sparse ir.2 fmax
              bs.reuseNext.lastB with
              | some r => r.isEmpty | none => false) = true
          · rw [if_pos hnf]
            refine ⟨⟨by simp, by simp⟩, ?_⟩
            intro hd f hf blk hblk
            rw [List.mem_singleton] at hblk
            rw [hblk]
            exact (hinv hd f hf).2
          · rw [if_neg hnf]
            by_cases hpr : (prune ∧ dom = .astar ∧ bs.lastB.fixedR = none)
            · rw [if_pos hpr]
              refine ⟨⟨by simp, by simp⟩, ?_⟩
              intro hd f hf blk hblk
              rw [List.mem_singleton] at hblk
              rw [hblk]
              exact (hinv hd f hf).2
            · rw [if_neg hpr]
              have hinv3 : dom = .astar → ∀ f, fmax = some f →
                  (bs.reuseNext.setLastFixed (fixedJRangeE dom h sparse ir.2
                    fmax bs.reuseNext.lastB)).cur <
                    (bs.reuseNext.setLastFixed (fixedJRangeE dom h sparse ir.2
                      fmax bs.reuseNext.lastB)).stored.length ∧
                  ∃ r, (bs.reuseNext.setLastFixed (fixedJRangeE dom h sparse
                    ir.2 fmax bs.reuseNext.lastB)).lastB.fixedR = some r ∧
                    r.lo ≤ r.hi := by
                intro hd f hf
                have hc2 := hcur2 hd f hf
                rw [hd, hf] at hnf ⊢
                constructor
                · show bs.reuseNext.cur <
                    (bs.reuseNext.stored.modify _ bs.reuseNext.cur).length
                  rw [List.length_modify]
                  exact hc2
                · obtain ⟨s, e2, hnfr⟩ : ∃ s e2,
                      fixedJRangeE .astar h sparse ir.2 (some f)
                        bs.reuseNext.lastB = some ⟨s, e2⟩ := ⟨_, _, rfl⟩
                  rw [hnfr] at hnf ⊢
                  refine ⟨⟨s, e2⟩, ?_, ?_⟩
                  · show ((bs.reuseNext.stored.modify _ bs.reuseNext.cur).getD
                      bs.reuseNext.cur default).fixedR = some ⟨s, e2⟩
                    rw [getD_modify_self _ _ _ hc2]
                  · simp [JR.isEmpty] at hnf
                    show s ≤ e2
                    omega
              refine ⟨⟨(IH _ _ hinv3).1.1, (IH _ _ hinv3).1.2⟩, ?_⟩
              intro hd f hf blk hblk
              rcases List.mem_cons.mp hblk with h1 | h1
              · rw [h1]
                exact (hinv hd f hf).2
              · exact (IH _ _ hinv3).2 hd f hf blk h1
        · rw [if_neg hre]
          have hcur2 : dom = .astar → ∀ f, fmax = some f →
              (bs.computeNext a b ir jr).cur <
                (bs.computeNext a b ir jr).stored.length := by
            intro hd f hf
            show bs.cur + 1 < (setAt bs.stored (bs.cur + 1) _).length
            rw [length_setAt]
            have := (hinv hd f hf).1
            split <;> omega
          by_cases hnf : (match fixedJRangeE dom h sparse ir.2 fmax
              (bs.computeNext a b ir jr).lastB with
              | some r => r.isEmpty | none => false) = true
          · rw [if_pos hnf]
            refine ⟨⟨by simp, by simp⟩, ?_⟩
            intro hd f hf blk hblk
            rw [List.mem_singleton] at hblk
            rw [hblk]
            exact (hinv hd f hf).2
          · rw [if_neg hnf]
            by_cases hpr : (prune ∧ dom = .astar ∧ bs.lastB.fixedR = none)
            · rw [if_pos hpr]
              refine ⟨⟨by simp, by simp⟩, ?_⟩
              intro hd f hf blk hblk
              rw [List.mem_singleton] at hblk
              rw [hblk]
              exact (hinv hd f hf).2
            · rw [if_neg hpr]
              have hinv3 : dom = .astar → ∀ f, fmax = some f →
                  ((bs.computeNext a b ir jr).setLastFixed (fixedJRangeE dom h
                    sparse ir.2 fmax (bs.computeNext a b ir jr).lastB)).cur <
                    ((bs.computeNext a b ir jr).setLastFixed (fixedJRangeE dom
                      h sparse ir.2 fmax
                      (bs.computeNext a b ir jr).lastB)).stored.length ∧
                  ∃ r, ((bs.computeNext a b ir jr).setLastFixed (fixedJRangeE
                    dom h sparse ir.2 fmax
                    (bs.computeNext a b ir jr).lastB)).lastB.fixedR =
                    some r ∧ r.lo ≤ r.hi := by
                intro hd f hf
                have hc2 := hcur2 hd f hf
                rw [hd, hf] at hnf ⊢
                constructor
                · show (bs.computeNext a b ir jr).cur <
                    ((bs.computeNext a b ir jr).stored.modify _
                      (bs.computeNext a b ir jr).cur).length
                  rw [List.length_modify]
                  exact hc2
                · obtain ⟨s, e2, hnfr⟩ : ∃ s e2,
                      fixedJRangeE .astar h sparse ir.2 (some f)
                        (bs.computeNext a b ir jr).lastB = some ⟨s, e2⟩ :=
                    ⟨_, _, rfl⟩
                  rw [hnfr] at hnf ⊢
                  refine ⟨⟨s, e2⟩, ?_, ?_⟩
                  · show (((bs.computeNext a b ir jr).stored.modify _
                      (bs.computeNext a b ir jr).cur).getD
                      (bs.computeNext a b ir jr).cur default).fixedR =
                      some ⟨s, e2⟩
                    rw [getD_modify_self _ _ _ hc2]
                  · simp [JR.isEmpty] at hnf
                    show s ≤ e2
                    omega
              refine ⟨⟨(IH _ _ hinv3).1.1, (IH _ _ hinv3).1.2⟩, ?_⟩
              intro hd f hf blk hblk
              rcases List.mem_cons.mp hblk with h1 | h1
              · rw [h1]
                exact (hinv hd f hf).2
              · exact (IH _ _ hinv3).2 hd f hf blk h1

theorem c10_counterexample :
    ((alignBD [0, 0] [0, 0] .astar (fun _ => 0) false 1 false none
        ⟨[], 0⟩).prevs.map (fun bl => bl.fixedR)) = [some ⟨0, 2⟩, none] ∧
    (alignBD [0, 0] [0, 0] .astar (fun _ => 0) false 1 false none
        ⟨[], 0⟩).res = .ok (some 0) := ⟨rfl, rfl⟩

/-- C10: under the Astar domain the fixed-range precondition holds only when
a cost bound is present: with `f_max = Some f` every block passed as `prev`
to `j_range` carries a non-empty `fixed_j_range`, and (for every domain and
every `f_max`) the `expect` on `prev.fixed_j_range` and the non-emptiness
assert inside `j_range` never fire; with `f_max = None` later blocks are
stored with `fixed_j_range = None`, but `j_range` then returns early and
never reads them. -/
theorem c10_fixed_range_invariant (a b : List Nat) (h : Int × Int → Int)
    (sparse : Bool) (bw : Nat) (prune : Bool) (bs0 : BlocksM) :
    (∀ f : Int,
      ((alignBD a b .astar h sparse bw prune (some f) bs0).prevs.all
        fixedOKb) = true) ∧
    (∀ (dom : DomainE) (fmax : Option Int),
      (alignBD a b dom h sparse bw prune fmax bs0).res ≠
        .error .expectFixedNone ∧
      (alignBD a b dom h sparse bw prune fmax bs0).res ≠
        .error .fixedEmptyAssert) := by
  have main : ∀ (dom : DomainE) (fmax : Option Int),
      ((alignBD a b dom h sparse bw prune fmax bs0).res ≠
          .error .expectFixedNone ∧
        (alignBD a b dom h sparse bw prune fmax bs0).res ≠
          .error .fixedEmptyAssert) ∧
      (dom = .astar → ∀ f, fmax = some f →
        ∀ blk ∈ (alignBD a b dom h sparse bw prune fmax bs0).prevs,
          ∃ r, blk.fixedR = some r ∧ r.lo ≤ r.hi) := by
    intro dom fmax
    simp only [alignBD]
    by_cases hneg : (match fmax with
        | some f => decide (f < 0) | none => false) = true
    · rw [if_pos hneg]
      exact ⟨⟨by simp, by simp⟩,
        fun hd f hf blk hblk => absurd hblk (by simp)⟩
    · rw [if_neg hneg]
      rcases hjr : jRangeE (a.length : Int) (b.length : Int) dom h sparse
          (bw : Int) (-1, 0) fmax ⟨0, ⟨0, 0⟩, some ⟨-1, -1⟩, []⟩
          ((bs0.stored.get? 0).map (fun bl => bl.jr)) with e | ijr <;>
        simp only [hjr]
      · have hek : e = .fAboveDiag := jRangeE_error_kind (a.length : Int)
          (b.length : Int) dom h sparse (bw : Int) (-1, 0) fmax
          ⟨0, ⟨0, 0⟩, some ⟨-1, -1⟩, []⟩
          ((bs0.stored.get? 0).map (fun bl => bl.jr)) e
          (fun hd f hf => ⟨⟨-1, -1⟩, rfl, le_refl (-1)⟩) hjr
        subst hek
        exact ⟨⟨by simp, by simp⟩,
          fun hd f hf blk hblk => absurd hblk (by simp)⟩
      · by_cases hg : (ijr.isEmpty = true ∨ 0 < ijr.lo)
        · rw [if_pos hg]
          exact ⟨⟨by simp, by simp⟩,
            fun hd f hf blk hblk => absurd hblk (by simp)⟩
        · rw [if_neg hg]
          have hlen0 : 0 < ((bs0.init ijr).setLastFixed (some ijr)).stored.length := by
            show 0 < ((bs0.init ijr).stored.modify _ 0).length
            rw [List.length_modify]
            show 0 < (setAt bs0.stored 0 _).length
            rw [length_setAt]
            split <;> omega
          have hinv1 : dom = .astar → ∀ f, fmax = some f →
              ((bs0.init ijr).setLastFixed (some ijr)).cur <
                ((bs0.init ijr).setLastFixed (some ijr)).stored.length ∧
              ∃ r, ((bs0.init ijr).setLastFixed
                (some ijr)).lastB.fixedR = some r ∧ r.lo ≤ r.hi := by
            intro hd f hf
            refine ⟨hlen0, ijr, ?_, ?_⟩
            · show (((bs0.init ijr).stored.modify _ 0).getD 0
                default).fixedR = some ijr
              have hlen1 : 0 < (bs0.init ijr).stored.length := by
                show 0 < (setAt bs0.stored 0 _).length
                rw [length_setAt]
                split <;> omega
              rw [getD_modify_self _ _ _ hlen1]
            · have h1 : ¬(ijr.isEmpty = true) := fun hh => hg (Or.inl hh)
              simp [JR.isEmpty] at h1
              omega
          have hl := alignLoop_no_bad_panic a b dom h sparse bw prune fmax
            (iRangesOf a.length bw) ((bs0.init ijr).setLastFixed (some ijr))
            true hinv1
          exact ⟨hl.1, hl.2⟩
  constructor
  · intro f
    rw [List.all_eq_true]
    intro blk hblk
    obtain ⟨r, hfr, hre⟩ := (main .astar (some f)).2 rfl f rfl blk hblk
    unfold fixedOKb
    rw [hfr]
    exact decide_eq_true hre
  · intro dom fmax
    exact (main dom fmax).1

end APA
